import Mathlib

/-
Verification of the GliaGL spiking-network engine against its specification.

The development shallowly embeds the C++ core in Lean:
  * `NeuronState` / `tickOne` / `stepOrder` embed `Neuron` (src/src/arch/neuron.cpp)
    and `Glia::step` (src/src/arch/glia.cpp).  Floating point `float` values are
    modelled as rationals; the simulator is always constructed with
    `tick = true` (every constructor call in the repository passes `true`), so
    `Neuron::receive` is embedded as its tick-mode branch, which stages the
    transmission in `on_deck`.
  * association lists stand in for `std::map` / `std::unordered_map`; the C++
    maps have unique keys, which appears as `Nodup` hypotheses where needed.
  * randomness (`std::mt19937`) is abstracted as an oracle argument, and the
    transcendental library calls (`std::exp`, `std::sqrt`) as function
    arguments, since the claims under study do not depend on their values.

Definitions come first, then helper lemmas, then one theorem per claim.
-/

set_option maxHeartbeats 1000000

namespace GliaGL

/-- State of one `Neuron` (src/src/arch/neuron.h): membrane `value`, `resting`
potential, leak factor `balancer`, the staged inputs `delta` (applied this
tick) and `on_deck` (buffered for next tick), refractory counters, firing
`threshold`, the `just_fired` flag and the outgoing `connections`
(target id, weight). -/
structure NeuronState where
  value : ℚ
  resting : ℚ
  balancer : ℚ
  delta : ℚ
  on_deck : ℚ
  refractory : ℕ
  refractory_period : ℕ
  threshold : ℚ
  just_fired : Bool
  connections : List (String × ℚ)
  deriving DecidableEq

/-- A network is a total assignment of neuron states to identifiers
(the id-to-neuron maps of `Glia`). -/
def NetState : Type := String → NeuronState

/-- Embedding of the tick-mode branch of `Neuron::receive`
(src/src/arch/neuron.cpp lines 112-121): the transmission is staged in
`on_deck`.  All neurons in the repository are constructed with
`tick = true`, so the immediate-application branch is dead code. -/
def receive (n : NeuronState) (amt : ℚ) : NeuronState :=
  { n with on_deck := n.on_deck + amt }

/-- Deliver one transmission to the neuron `x` of the network. -/
def deposit (net : NetState) (x : String) (w : ℚ) : NetState :=
  Function.update net x (receive (net x) w)

/-- The transmission loop of `Neuron::fire` (src/src/arch/neuron.cpp lines
219-223): each outgoing connection receives its weight. -/
def fireDeposits (conns : List (String × ℚ)) (net : NetState) : NetState :=
  conns.foldl (fun m p => deposit m p.1 p.2) net

/-- Total weight sent from a connection list to the target `x` (each entry
whose key is `x` contributes its weight; `std::map` keys are unique, so at
most one entry matches in reachable states). -/
def outW (conns : List (String × ℚ)) (x : String) : ℚ :=
  (conns.map (fun p => if p.1 = x then p.2 else 0)).sum

/-- The clamp `if (value < 0) value = 0` of the membrane update
(src/src/arch/neuron.cpp line 171), i.e. `max 0` written the way the source
writes it. -/
def clampQ (x : ℚ) : ℚ :=
  if x < 0 then 0 else x

/-- Embedding of `Neuron::tick` (src/src/arch/neuron.cpp lines 150-187)
together with `Neuron::fire` (lines 208-225) applied to neuron `u` of the
network: clear `just_fired`, promote `on_deck` into `delta` (the old `delta`
is the tick's `incoming`), decrement the refractory counter and stop if it
was positive, otherwise integrate `V := L*V + incoming` clamped at zero and
fire if `V` exceeds the threshold (reset to resting, flag, deposit each
outgoing weight).  Firing does not re-arm the refractory counter (that line
is commented out in the source). -/
def tickOne (net : NetState) (u : String) : NetState :=
  if 0 < (net u).refractory then
    Function.update net u
      { net u with just_fired := false, delta := (net u).on_deck, on_deck := 0,
                   refractory := (net u).refractory - 1 }
  else if (net u).threshold < clampQ ((net u).balancer * (net u).value + (net u).delta) then
    fireDeposits (net u).connections
      (Function.update net u
        { net u with just_fired := true, delta := (net u).on_deck, on_deck := 0,
                     value := (net u).resting })
  else
    Function.update net u
      { net u with just_fired := false, delta := (net u).on_deck, on_deck := 0,
                   value := clampQ ((net u).balancer * (net u).value + (net u).delta) }

/-- Embedding of `Glia::step` (src/src/arch/glia.cpp lines 52-63): every
neuron is ticked in a fixed order (sensory neurons first, then the rest;
the order is a parameter here). -/
def stepOrder (order : List String) (net : NetState) : NetState :=
  order.foldl tickOne net

/-- Run several steps, one order list per step. -/
def runSteps (orders : List (List String)) (net : NetState) : NetState :=
  orders.foldl (fun s o => stepOrder o s) net

/-- A sensory injection (`Glia::injectSensory` on a registered sensory id,
src/src/arch/glia.cpp lines 353-362): the amount is staged in the target's
`on_deck` through `Neuron::receive`. -/
def injectAmt (net : NetState) (s : String) (amt : ℚ) : NetState :=
  Function.update net s (receive (net s) amt)

/-- The transition claimed for one `Neuron::tick` in tick mode, written
directly from the claim C1 text (for comparison with `tickOne`): just-fired
cleared; `incoming` takes the old `delta`, `delta` takes `on_deck`,
`on_deck` becomes `0`; a positive refractory countdown is decremented and
nothing else changes; otherwise `V := max 0 (L*V + incoming)` and, if
`V > θ`, the neuron fires: just-fired set, `V := R`, and each outgoing
edge's weight is added to the target's `on_deck`. -/
def tickClaimed (net : NetState) (u : String) : NetState := fun x =>
  if 0 < (net u).refractory then
    (if x = u then
      { net u with just_fired := false, delta := (net u).on_deck, on_deck := 0,
                   refractory := (net u).refractory - 1 }
     else net x)
  else if (net u).threshold < max 0 ((net u).balancer * (net u).value + (net u).delta) then
    (if x = u then
      { net u with just_fired := true, value := (net u).resting, delta := (net u).on_deck,
                   on_deck := outW (net u).connections u }
     else { net x with on_deck := (net x).on_deck + outW (net u).connections x })
  else
    (if x = u then
      { net u with just_fired := false,
                   value := max 0 ((net u).balancer * (net u).value + (net u).delta),
                   delta := (net u).on_deck, on_deck := 0 }
     else net x)

/-- The deposit-free part of `Neuron::tick`: how a neuron's own state evolves
in one tick as a function of that state alone (transmissions from other
neurons during the same step only touch `on_deck`, which feeds the next
tick's `delta`). -/
def tickCore (n : NeuronState) : NeuronState :=
  if 0 < n.refractory then
    { n with just_fired := false, delta := n.on_deck, on_deck := 0,
             refractory := n.refractory - 1 }
  else if n.threshold < clampQ (n.balancer * n.value + n.delta) then
    { n with just_fired := true, delta := n.on_deck, on_deck := 0, value := n.resting }
  else
    { n with just_fired := false, delta := n.on_deck, on_deck := 0,
             value := clampQ (n.balancer * n.value + n.delta) }

/-- Result of `Neuron::tick` for the ticked neuron itself, self-deposits
included (`u` is the neuron's own id, needed for self-loop deposits). -/
def tickSelf (n : NeuronState) (u : String) : NeuronState :=
  if 0 < n.refractory then
    { n with just_fired := false, delta := n.on_deck, on_deck := 0,
             refractory := n.refractory - 1 }
  else if n.threshold < clampQ (n.balancer * n.value + n.delta) then
    { n with just_fired := true, value := n.resting, delta := n.on_deck,
             on_deck := outW n.connections u }
  else
    { n with just_fired := false, value := clampQ (n.balancer * n.value + n.delta),
             delta := n.on_deck, on_deck := 0 }

/-- The tick fires the neuron: not refractory, and the integrated membrane
potential exceeds the threshold. -/
def FiresNow (n : NeuronState) : Prop :=
  ¬ 0 < n.refractory ∧ n.threshold < clampQ (n.balancer * n.value + n.delta)

instance (n : NeuronState) : Decidable (FiresNow n) := by
  unfold FiresNow; infer_instance

/-- The fields observed between ticks: membrane potential, firing flag and
refractory countdown. -/
def CoreEq (a b : NeuronState) : Prop :=
  a.value = b.value ∧ a.just_fired = b.just_fired ∧ a.refractory = b.refractory

/-- The parameters that simulation never modifies. -/
def SameParams (a b : NeuronState) : Prop :=
  a.resting = b.resting ∧ a.balancer = b.balancer ∧ a.threshold = b.threshold ∧
  a.connections = b.connections

/-- There is a synaptic edge `a → b` in the network. -/
def HasEdge (net : NetState) (a b : String) : Prop :=
  ∃ w, (b, w) ∈ (net a).connections

/-- `ReachesN E s n k`: there is a directed path of length `k` from `s` to
`n` along the edge relation `E`. -/
inductive ReachesN (E : String → String → Prop) (s : String) : String → ℕ → Prop
  | refl : ReachesN E s s 0
  | tail {b c : String} {k : ℕ} : ReachesN E s b k → E b c → ReachesN E s c (k + 1)

/-- Every path from `s` to `n` has length at least `m` (so `n` is "at least
`m` hops away" from `s`; vacuously true when `n` is unreachable). -/
def FarFrom (E : String → String → Prop) (s n : String) (m : ℕ) : Prop :=
  ∀ k, ReachesN E s n k → m ≤ k

/-- Agreement of two runs `τ` ticks after a perturbation at `s`: neurons at
least `τ+1` hops away are in identical states, neurons at least `τ` hops
away agree on the observable core. -/
def AgreeVia (E : String → String → Prop) (s : String) (τ : ℕ) (A B : NetState) : Prop :=
  ∀ n, (FarFrom E s n (τ + 1) → A n = B n) ∧ (FarFrom E s n τ → CoreEq (A n) (B n))

/-- Mid-step agreement invariant while ticking the neurons of one step in
order; `P` marks the neurons already ticked this step. -/
def MidInv (E : String → String → Prop) (s : String) (τ : ℕ) (P : String → Prop)
    (A B : NetState) : Prop :=
  ∀ n, (FarFrom E s n (τ + 2) → A n = B n)
     ∧ (FarFrom E s n (τ + 1) → CoreEq (A n) (B n))
     ∧ (FarFrom E s n (τ + 1) → ¬ P n → (A n).delta = (B n).delta)

/-- A quiescent neuron used to build concrete example networks. -/
def baseNeuron : NeuronState :=
  { value := 0, resting := 0, balancer := 1, delta := 0, on_deck := 0,
    refractory := 0, refractory_period := 0, threshold := 1, just_fired := false,
    connections := [] }

/-- A two-neuron network `S0 → N0` (edge weight 200). -/
def netC2 : NetState := fun x =>
  if x = "S0" then { baseNeuron with connections := [("N0", 200)] } else baseNeuron

/-- A single-neuron configuration with a negative resting potential, as the
legacy `NEURON <id> <threshold> <leak> <resting>` file directive permits. -/
def netC7 : NetState := fun _ =>
  { value := -1, resting := -1, balancer := 1, delta := 0, on_deck := 0,
    refractory := 0, refractory_period := 0, threshold := 1, just_fired := false,
    connections := [] }

/-- First-match lookup in an association list (the embedding of `std::map` /
`std::unordered_map`, whose keys are unique). -/
def alookup {κ α : Type} [DecidableEq κ] : List (κ × α) → κ → Option α
  | [], _ => none
  | (a, v) :: tl, k => if a = k then some v else alookup tl k

/-- Overwrite the value stored at an existing key. -/
def aset {κ α : Type} [DecidableEq κ] (l : List (κ × α)) (k : κ) (v : α) : List (κ × α) :=
  l.map (fun p => if p.1 = k then (k, v) else p)

/-- Insert-or-assign, the effect of `map[k] = v`. -/
def aupsert {κ α : Type} [DecidableEq κ] (l : List (κ × α)) (k : κ) (v : α) : List (κ × α) :=
  if (alookup l k).isSome then aset l k v else l ++ [(k, v)]

/-- State of `FiringRateTracker` (src/src/arch/output_detection.h): the EMA
smoothing factor and the per-neuron rate map. -/
structure RateTracker where
  alpha : ℚ
  rates : List (String × ℚ)
  deriving DecidableEq

/-- `FiringRateTracker` with no updates yet (constructor / `reset`). -/
def freshTracker (alpha : ℚ) : RateTracker :=
  { alpha := alpha, rates := [] }

/-- `FiringRateTracker::update` (lines 45-53): insert 0 for an unseen neuron
and apply `r ← (1-α)·r + α·[fired]`. -/
def trUpdate (t : RateTracker) (id : String) (fired : Bool) : RateTracker :=
  { t with
    rates :=
      aupsert t.rates id
        ((1 - t.alpha) * ((alookup t.rates id).getD 0) +
          t.alpha * (if fired then 1 else 0)) }

/-- `FiringRateTracker::getRate` (lines 60-64): the tracked rate, or 0 when
the neuron is not tracked. -/
def trGetRate (t : RateTracker) (id : String) : ℚ :=
  (alookup t.rates id).getD 0

/-- `FiringRateTracker::argmax` (lines 73-97): scan for the highest rate
starting from `max_rate = -1`, and fall back to the default id when the
maximum rate is below the threshold. -/
def trArgmax (t : RateTracker) (ids : List String) (dflt : String) (thr : ℚ) : String :=
  let p := ids.foldl
    (fun (acc : String × ℚ) id =>
      if acc.2 < trGetRate t id then (id, trGetRate t id) else acc)
    ("", -1)
  if p.2 < thr then dflt else p.1

/-- `FiringRateTracker::getMargin` (lines 104-117): 0 with fewer than two
ids, otherwise the gap between the two highest rates after a descending
sort. -/
def trMargin (t : RateTracker) (ids : List String) : ℚ :=
  if ids.length < 2 then 0
  else
    ((ids.map (trGetRate t)).mergeSort (fun a b => decide (b ≤ a))).getD 0 0 -
      ((ids.map (trGetRate t)).mergeSort (fun a b => decide (b ≤ a))).getD 1 0

/-- A sequence of `update` calls applied in order. -/
def applyUpdates (t : RateTracker) (us : List (String × Bool)) : RateTracker :=
  us.foldl (fun t p => trUpdate t p.1 p.2) t

/-- State of a `Glia` network: the sensory neuron ids (keys of
`sensory_mapping`), the remaining neuron ids (keys of `neuron_mapping`,
iterated second), and the per-id neuron states. -/
structure GliaState where
  sens : List String
  rest : List String
  st : NetState

/-- Iteration order of `Glia::step` / `Glia::forEachNeuron`: sensory
neurons first, then the rest. -/
def allIds (g : GliaState) : List String :=
  g.sens ++ g.rest

/-- `Glia::step` (src/src/arch/glia.cpp lines 52-63). -/
def gliaStep (g : GliaState) : GliaState :=
  { g with st := stepOrder (allIds g) g.st }

/-- `Glia::injectSensory` (src/src/arch/glia.cpp lines 353-362): look the id
up in the sensory mapping; on a hit, `receive` stages the amount in that
neuron's `on_deck`; on a miss, do nothing. -/
def injectSensory (g : GliaState) (id : String) (amt : ℚ) : GliaState :=
  if id ∈ g.sens then
    { g with st := Function.update g.st id (receive (g.st id) amt) }
  else g

/-- A concrete two-neuron `Glia` for witnesses. -/
def gC9 : GliaState :=
  { sens := ["S0"], rest := ["N0"], st := netC2 }

/-- `Trainer::EdgeRec` (src/src/train/trainer.h line 552): one edge of a
snapshot.  The C++ fields `from`/`to` are Lean keywords, rendered as
`src`/`dst`. -/
structure EdgeRec where
  src : String
  dst : String
  w : ℚ
  deriving DecidableEq

/-- `Trainer::NeuronRec` (line 553): per-neuron threshold and leak. -/
structure NeuronRec where
  nid : String
  thr : ℚ
  leak : ℚ
  deriving DecidableEq

/-- `Trainer::Snapshot` (line 554). -/
structure Snapshot where
  neurons : List NeuronRec
  edges : List EdgeRec
  deriving DecidableEq

/-- `Trainer::captureSnapshot` (lines 614-627): record every neuron's id,
threshold and leak, then every edge, in `forEachNeuron` order. -/
def captureSnapshot (g : GliaState) : Snapshot :=
  { neurons := (allIds g).map (fun id => ⟨id, (g.st id).threshold, (g.st id).balancer⟩),
    edges := (allIds g).flatMap
      (fun id => (g.st id).connections.map (fun p => ⟨id, p.1, p.2⟩)) }

/-- Membership of the pair `(a, b)` in the snapshot's `edge_set`
(`Trainer::restoreSnapshot` lines 631-632). -/
def snapHasEdge (s : Snapshot) (a b : String) : Bool :=
  s.edges.any (fun e => decide (e.src = a ∧ e.dst = b))

/-- The weight the snapshot records for `(a, b)` (the last record wins when
the fold applies duplicates, but snapshot edge keys are unique in captured
snapshots; `find?` matches the first). -/
def snapWeight (s : Snapshot) (a b : String) : Option ℚ :=
  (s.edges.find? (fun e => decide (e.src = a ∧ e.dst = b))).map EdgeRec.w

/-- Phase (a) of `Trainer::restoreSnapshot` (lines 630-641): every edge not
present in the snapshot is removed (collect-then-erase per neuron, which is
a key filter since `std::map` keys are unique). -/
def removeAbsent (s : Snapshot) (g : GliaState) : GliaState :=
  { g with
    st :=
      (allIds g).foldl
        (fun st id =>
          Function.update st id
            { st id with
              connections := (st id).connections.filter (fun p => snapHasEdge s id p.1) })
        g.st }

/-- Phases (b)-(c) of `Trainer::restoreSnapshot` (lines 642-650) for one
edge record: skip when either endpoint is missing, `addConnection` when the
edge is absent, `setTransmitter` when it exists. -/
def applyEdgeRec (g : GliaState) (e : EdgeRec) : GliaState :=
  if e.src ∈ allIds g ∧ e.dst ∈ allIds g then
    { g with
      st :=
        Function.update g.st e.src
          { g.st e.src with
            connections :=
              match alookup (g.st e.src).connections e.dst with
              | none => (g.st e.src).connections ++ [(e.dst, e.w)]
              | some _ => aset (g.st e.src).connections e.dst e.w } }
  else g

/-- Phase (d) of `Trainer::restoreSnapshot` (lines 651-657) for one neuron
record: set threshold and leak when the neuron exists. -/
def applyNeuronRec (g : GliaState) (r : NeuronRec) : GliaState :=
  if r.nid ∈ allIds g then
    { g with
      st :=
        Function.update g.st r.nid
          { g.st r.nid with threshold := r.thr, balancer := r.leak } }
  else g

/-- `Trainer::restoreSnapshot` (lines 629-658). -/
def restoreSnapshot (s : Snapshot) (g : GliaState) : GliaState :=
  s.neurons.foldl applyNeuronRec (s.edges.foldl applyEdgeRec (removeAbsent s g))

/-- Trainer state (the members of the `Trainer` class relevant to the
simulation-and-learning engine); the `std::unordered_map` counters are
total functions defaulting to zero, exactly the semantics of
`operator[]`. -/
structure TrainerState where
  glia : GliaState
  neuron_rate : String → ℚ
  prune_counter : String × String → ℤ
  inactive_counter : String → ℤ
  reward_baseline : ℚ
  l0 : List Snapshot
  l1 : List Snapshot
  l2 : List Snapshot

/-- A freshly constructed `Trainer`: empty maps, zero baseline, empty
checkpoint ladders. -/
def mkTrainer (g : GliaState) : TrainerState :=
  { glia := g, neuron_rate := fun _ => 0, prune_counter := fun _ => 0,
    inactive_counter := fun _ => 0, reward_baseline := 0,
    l0 := [], l1 := [], l2 := [] }

/-- One overflow check of the checkpoint cascade: when `src` exceeds the
capacity its front is promoted to the back of `dst`
(`Trainer::onEpochEndCapture` lines 663-673). -/
def overflowPromote (c : ℤ) (src dst : List Snapshot) : List Snapshot × List Snapshot :=
  if c < (src.length : ℤ) then (src.tail, dst ++ src.take 1) else (src, dst)

/-- The last overflow check: L2 drops its oldest element (lines 674-676). -/
def overflowDrop (c : ℤ) (src : List Snapshot) : List Snapshot :=
  if c < (src.length : ℤ) then src.tail else src

/-- The ladder update of `Trainer::onEpochEndCapture` (lines 660-677):
push to the back of L0, then run the three sequential overflow checks. -/
def ladderPush (c0 c1 c2 : ℤ) (s : Snapshot) (l0 l1 l2 : List Snapshot) :
    List Snapshot × List Snapshot × List Snapshot :=
  ((overflowPromote c0 (l0 ++ [s]) l1).1,
   (overflowPromote c1 (overflowPromote c0 (l0 ++ [s]) l1).2 l2).1,
   overflowDrop c2 (overflowPromote c1 (overflowPromote c0 (l0 ++ [s]) l1).2 l2).2)

/-- Capacities of the checkpoint ladder (`ckpt_l0`, `ckpt_l1`, `ckpt_l2` of
`TrainingConfig`). -/
structure LadderCfg where
  c0 : ℤ
  c1 : ℤ
  c2 : ℤ

/-- `Trainer::onEpochEndCapture` (lines 660-677): capture a snapshot of the
network and push it through the ladder. -/
def onEpochEndCapture (cfg : LadderCfg) (ts : TrainerState) : TrainerState :=
  { ts with
    l0 := (ladderPush cfg.c0 cfg.c1 cfg.c2 (captureSnapshot ts.glia) ts.l0 ts.l1 ts.l2).1,
    l1 := (ladderPush cfg.c0 cfg.c1 cfg.c2 (captureSnapshot ts.glia) ts.l0 ts.l1 ts.l2).2.1,
    l2 := (ladderPush cfg.c0 cfg.c1 cfg.c2 (captureSnapshot ts.glia) ts.l0 ts.l1 ts.l2).2.2 }

/-- A concrete one-edge snapshot for witnesses. -/
def snapC5 : Snapshot :=
  { neurons := [⟨"N0", 2, 1⟩], edges := [⟨"S0", "N0", 3⟩] }

/-- `pop_back` of a checkpoint level (`Trainer::revertOneFrom` takes
`level.back()` and pops it). -/
def popBack (l : List Snapshot) : Option (Snapshot × List Snapshot) :=
  match l.getLast? with
  | none => none
  | some s => some (s, l.dropLast)

/-- `Trainer::revertOneCheckpoint` (lines 687-692): try L0, then L1, then
L2; restore the popped snapshot; report whether anything was reverted. -/
def revertOneCheckpoint (ts : TrainerState) : Bool × TrainerState :=
  match popBack ts.l0 with
  | some (s, rest) => (true, { ts with glia := restoreSnapshot s ts.glia, l0 := rest })
  | none =>
    match popBack ts.l1 with
    | some (s, rest) => (true, { ts with glia := restoreSnapshot s ts.glia, l1 := rest })
    | none =>
      match popBack ts.l2 with
      | some (s, rest) => (true, { ts with glia := restoreSnapshot s ts.glia, l2 := rest })
      | none => (false, ts)

/-- `TopologyPolicy` (src/src/arch/topology_policy.h). -/
structure TopologyPolicy where
  allow_inbound_to_sensory : Bool
  allow_feedback_to_outputs : Bool
  allow_self_loops : Bool
  deriving DecidableEq

/-- First character test `!id.empty() && id[0] == c`. -/
def headIs (s : String) (c : Char) : Bool :=
  match s.data with
  | [] => false
  | a :: _ => a = c

/-- `TopologyPolicy::edgeAllowed` (src/src/arch/topology_policy.h
lines 19-31). -/
def edgeAllowed (tp : TopologyPolicy) (fromId toId : String) : Bool :=
  if !tp.allow_inbound_to_sensory && headIs toId 'S' then false
  else if !tp.allow_feedback_to_outputs && headIs toId 'O' then false
  else if !tp.allow_self_loops && (fromId == toId) then false
  else true

/-- `GradConfig` (src/src/train/hebbian/training_config.h lines 13-22);
`momentum` and `loss` are unused by the embedded code. -/
structure GradConfig where
  temperature : ℚ
  optimizer : String
  adam_beta1 : ℚ
  adam_beta2 : ℚ
  adam_eps : ℚ
  clip_grad_norm : ℚ
  deriving DecidableEq

/-- `TrainingConfig` (src/src/train/hebbian/training_config.h): the fields
consumed by the embedded trainer code.  Fields used only by `trainEpoch`
scheduling and logging (batch_size, shuffle, verbose, log_every, seed,
jitter, checkpoint/revert switches) are omitted; `int` fields are `ℤ` and
tick counts are `ℕ`. -/
structure TrainingConfig where
  warmup_ticks : ℕ
  decision_window : ℕ
  det_alpha : ℚ
  det_threshold : ℚ
  det_default : String
  topology : TopologyPolicy
  lr : ℚ
  elig_lambda : ℚ
  weight_decay : ℚ
  margin_delta : ℚ
  reward_pos : ℚ
  reward_neg : ℚ
  reward_mode : String
  reward_gain : ℚ
  reward_min : ℚ
  reward_max : ℚ
  update_gating : String
  no_update_if_satisfied : Bool
  use_advantage_baseline : Bool
  baseline_beta : ℚ
  r_target : ℚ
  rate_alpha : ℚ
  elig_post_use_rate : Bool
  eta_theta : ℚ
  eta_leak : ℚ
  prune_epsilon : ℚ
  prune_patience : ℤ
  grow_edges : ℤ
  init_weight : ℚ
  weight_clip : ℚ
  usage_boost_gain : ℚ
  inactive_rate_threshold : ℚ
  inactive_rate_patience : ℤ
  prune_inactive_max : ℤ
  prune_inactive_out : Bool
  prune_inactive_in : Bool
  grad : GradConfig

/-- The effective Adam epsilon
(`cfg.grad.adam_eps > 0 ? cfg.grad.adam_eps : 1e-8`). -/
def adamEff (cfg : TrainingConfig) : ℚ :=
  if 0 < cfg.grad.adam_eps then cfg.grad.adam_eps else 1 / 10 ^ 8

/-- The bias-corrected Adam step magnitude `lr · m̂ / (√v̂ + eps)` computed
from the updated first and second moments
(`RateGDTrainer::applyGradients` lines 243-255); `sqrtQ` abstracts
`std::sqrt`. -/
def adamDelta (cfg : TrainingConfig) (sqrtQ : ℚ → ℚ) (step : ℕ) (m v g : ℚ) : ℚ :=
  let m1 := cfg.grad.adam_beta1 * m + (1 - cfg.grad.adam_beta1) * g
  let v1 := cfg.grad.adam_beta2 * v + (1 - cfg.grad.adam_beta2) * (g * g)
  let bias1 := 1 - cfg.grad.adam_beta1 ^ step
  let bias2 := 1 - cfg.grad.adam_beta2 ^ step
  let mhat := m1 / (if 1 / 10 ^ 20 < bias1 then bias1 else 1)
  let vhat := v1 / (if 1 / 10 ^ 20 < bias2 then bias2 else 1)
  cfg.lr * (mhat / (sqrtQ vhat + adamEff cfg))

/-- The symmetric weight clip applied at the end of each edge update
(`if (cfg.weight_clip > 0) ...`). -/
def clampW (c w : ℚ) : ℚ :=
  if 0 < c then (if c < w then c else if w < -c then -c else w) else w

/-- The per-edge body of `RateGDTrainer::applyGradients`
(src/src/train/gradient/rate_gd_trainer.h lines 230-267): given the
incremented Adam step, the stored moments `m`, `v`, the scaled clipped
gradient `g` and the weight `w`, produce the new weight and moments.
For Adam/AdamW the moments are updated and the bias-corrected step is
taken, AdamW applying its decoupled decay `w -= lr·wd·w` first; otherwise
plain SGD `w -= lr·g`.  The coupled decay `w -= wd·w` then applies to every
optimizer except AdamW, and the optional clip last. -/
def gdEdgeUpdate (cfg : TrainingConfig) (sqrtQ : ℚ → ℚ) (step : ℕ)
    (m v g w : ℚ) : ℚ × ℚ × ℚ :=
  let use_adam := cfg.grad.optimizer = "adam"
  let use_adamw := cfg.grad.optimizer = "adamw"
  let res :=
    if use_adam ∨ use_adamw then
      let m1 := cfg.grad.adam_beta1 * m + (1 - cfg.grad.adam_beta1) * g
      let v1 := cfg.grad.adam_beta2 * v + (1 - cfg.grad.adam_beta2) * (g * g)
      let w1 :=
        if use_adamw ∧ 0 < cfg.weight_decay then w - cfg.lr * cfg.weight_decay * w else w
      (w1 - adamDelta cfg sqrtQ step m v g, m1, v1)
    else
      (w - cfg.lr * g, m, v)
  let w2 :=
    if (¬ use_adamw) ∧ 0 < cfg.weight_decay then res.1 - cfg.weight_decay * res.1 else res.1
  (clampW cfg.weight_clip w2, res.2.1, res.2.2)

/-- State of a `RateGDTrainer`: the network plus the Adam moment maps and
step counter. -/
structure GDState where
  glia : GliaState
  neuron_rate : String → ℚ
  adam_m : String × String → ℚ
  adam_v : String × String → ℚ
  adam_step : ℕ

/-- One edge of the `applyGradients` loop applied to the trainer state. -/
def applyGradEdge (cfg : TrainingConfig) (sqrtQ : ℚ → ℚ) (step : ℕ)
    (grad : List ((String × String) × ℚ)) (scale clip_scale : ℚ) (fromId : String)
    (gs : GDState) (p : String × ℚ) : GDState :=
  let k := (fromId, p.1)
  let g :=
    match alookup grad k with
    | some gv => gv * scale * clip_scale
    | none => 0
  let r := gdEdgeUpdate cfg sqrtQ step (gs.adam_m k) (gs.adam_v k) g p.2
  { gs with
    glia :=
      { gs.glia with
        st :=
          Function.update gs.glia.st fromId
            { gs.glia.st fromId with
              connections := aset (gs.glia.st fromId).connections p.1 r.1 } },
    adam_m := Function.update gs.adam_m k r.2.1,
    adam_v := Function.update gs.adam_v k r.2.2 }

/-- `RateGDTrainer::applyGradients` (src/src/train/gradient/rate_gd_trainer.h
lines 213-269): optional global L2 gradient clipping, one Adam step
increment, then the per-edge update over every connection. -/
def applyGradients (cfg : TrainingConfig) (sqrtQ : ℚ → ℚ)
    (grad : List ((String × String) × ℚ)) (scale : ℚ) (gs : GDState) : GDState :=
  let clip_scale :=
    if 0 < cfg.grad.clip_grad_norm then
      let sumsq := (grad.map (fun kv => (kv.2 * scale) * (kv.2 * scale))).sum
      let norm := sqrtQ (if sumsq < 1 / 10 ^ 30 then 1 / 10 ^ 30 else sumsq)
      if cfg.grad.clip_grad_norm < norm then cfg.grad.clip_grad_norm / norm else 1
    else 1
  let step' :=
    if cfg.grad.optimizer = "adam" ∨ cfg.grad.optimizer = "adamw" then
      max 1 (gs.adam_step + 1)
    else gs.adam_step
  (allIds gs.glia).foldl
    (fun gs1 fromId =>
      ((gs1.glia.st fromId).connections).foldl
        (applyGradEdge cfg sqrtQ step' grad scale clip_scale fromId) gs1)
    { gs with adam_step := step' }

/-- A concrete training configuration with the defaults of
src/src/train/hebbian/training_config.h (weight_clip 0, weight_decay 0). -/
def cfgDef : TrainingConfig :=
  { warmup_ticks := 5, decision_window := 20, det_alpha := 1/10, det_threshold := 1/100,
    det_default := "O2",
    topology :=
      { allow_inbound_to_sensory := false, allow_feedback_to_outputs := false,
        allow_self_loops := false },
    lr := 1/20, elig_lambda := 9/10, weight_decay := 0, margin_delta := 1/20,
    reward_pos := 1, reward_neg := -1, reward_mode := "softplus_margin", reward_gain := 4,
    reward_min := -1, reward_max := 1, update_gating := "winner_only",
    no_update_if_satisfied := true, use_advantage_baseline := true, baseline_beta := 1/10,
    r_target := 0, rate_alpha := 1/5, elig_post_use_rate := true, eta_theta := 0,
    eta_leak := 0, prune_epsilon := 1/10000, prune_patience := 3, grow_edges := 0,
    init_weight := 1/10, weight_clip := 0, usage_boost_gain := 0,
    inactive_rate_threshold := 0, inactive_rate_patience := 3, prune_inactive_max := 0,
    prune_inactive_out := true, prune_inactive_in := false,
    grad :=
      { temperature := 1, optimizer := "sgd", adam_beta1 := 9/10, adam_beta2 := 999/1000,
        adam_eps := 1/100000000, clip_grad_norm := 0 } }

/-- The per-tick eligibility accumulation of the eligibility-trace learner
(`Trainer::computeEpisodeDelta`, src/src/train/trainer.h lines 116-125):
for every edge `(from, to)`,
`e ← λ·e + pre·post` with `pre` the presynaptic spike indicator and `post`
either the postsynaptic spike indicator or its EMA rate.  `fired` and
`rate` are the per-tick maps computed just before, and the eligibility map
is total with default 0 (`operator[]`). -/
def hebbEligTick (lam : ℚ) (postUseRate : Bool) (g : GliaState)
    (fired : String → Bool) (rate : String → ℚ)
    (elig : String × String → ℚ) : String × String → ℚ :=
  (allIds g).foldl
    (fun e fromId =>
      ((g.st fromId).connections).foldl
        (fun e p =>
          Function.update e (fromId, p.1)
            (lam * e (fromId, p.1) +
              (if fired fromId then 1 else 0) *
                (if postUseRate then rate p.1 else (if fired p.1 then 1 else 0))))
        e)
    elig

/-- The per-tick eligibility accumulation of the rate-gradient learner
(`RateGDTrainer::computeEpisodeGrad`, src/src/train/gradient/rate_gd_trainer.h
line 139): for every edge `(from, to)`, `e ← λ·e + r_from` where `r_from`
is the presynaptic EMA rate (`pre = neuron_rate[from_id]`; no spike
indicator and no postsynaptic factor appear in the source). -/
def gdEligTick (lam : ℚ) (g : GliaState) (rate : String → ℚ)
    (elig : String × String → ℚ) : String × String → ℚ :=
  (allIds g).foldl
    (fun e fromId =>
      ((g.st fromId).connections).foldl
        (fun e p =>
          Function.update e (fromId, p.1) (lam * e (fromId, p.1) + rate fromId))
        e)
    elig

/-- `InputSequence` (src/src/vis/input_sequence.h): timed sensory events.
Each event holds a tick number and its `std::map` of inputs, kept here as an
association list in the map's key order. -/
structure InputSeq where
  events : List (ℤ × List (String × ℚ))
  current_tick : ℤ
  loop : Bool

/-- `InputSequence::getCurrentInputs` (lines 37-45): the first event whose
tick matches, or no inputs. -/
def seqCurrentInputs (s : InputSeq) : List (String × ℚ) :=
  match s.events.find? (fun e => decide (e.1 = s.current_tick)) with
  | some e => e.2
  | none => []

/-- `InputSequence::getMaxTick` (lines 62-68). -/
def seqMaxTick (s : InputSeq) : ℤ :=
  s.events.foldl (fun m e => if m < e.1 then e.1 else m) 0

/-- `InputSequence::advance` (lines 48-53). -/
def seqAdvance (s : InputSeq) : InputSeq :=
  if s.loop ∧ seqMaxTick s < s.current_tick + 1 then { s with current_tick := 0 }
  else { s with current_tick := s.current_tick + 1 }

/-- `InputSequence::reset` (lines 56-58). -/
def seqReset (s : InputSeq) : InputSeq :=
  { s with current_tick := 0 }

/-- `Trainer::injectFromSequence` (src/src/train/trainer.h lines 694-699):
inject every input of the current tick. -/
def injectFromSeq (g : GliaState) (s : InputSeq) : GliaState :=
  (seqCurrentInputs s).foldl (fun g1 kv => injectSensory g1 kv.1 kv.2) g

/-- `Trainer::collectOutputIDs` (lines 599-606): ids starting with `O`, in
`forEachNeuron` order. -/
def collectOutputIDs (g : GliaState) : List String :=
  (allIds g).filter (fun id => headIs id 'O')

/-- Modelled from the spec: `EMAOutputDetector` (§4.6; the class itself is
absent from src/, only its use sites in trainer.h survive).  It wraps the
firing-rate EMA of `FiringRateTracker` with a prediction threshold and a
default id: `update` feeds the tracker, `predict` is the tracker's argmax
with that threshold and default, margin and rates delegate to the
tracker. -/
structure EMADetector where
  tr : RateTracker
  threshold : ℚ
  default_id : String

/-- Modelled from the spec: `EMAOutputDetector::update` delegates to the
rate tracker (§4.6). -/
def detUpdate (d : EMADetector) (id : String) (fired : Bool) : EMADetector :=
  { d with tr := trUpdate d.tr id fired }

/-- Modelled from the spec: `EMAOutputDetector::predict` returns the argmax
id, falling back to the default when the best rate is below the threshold
(§4.6). -/
def detPredict (d : EMADetector) (ids : List String) : String :=
  trArgmax d.tr ids d.default_id d.threshold

/-- `Trainer::updateDetector` (lines 701-706): feed each output neuron's
fired flag, skipping unknown ids. -/
def updateDetector (g : GliaState) (outIds : List String) (d : EMADetector) : EMADetector :=
  outIds.foldl
    (fun d1 id => if id ∈ allIds g then detUpdate d1 id (g.st id).just_fired else d1) d

/-- `Trainer::EpisodeMetrics`: winner, margin and per-output rates of one
episode. -/
structure EpisodeMetrics where
  winner : String
  margin : ℚ
  rates : List (String × ℚ)
  ticks_run : ℕ

/-- The running-maximum scan of `Trainer::targetMargin` (lines 560-571)
over the non-target entries: the first entry seeds the maximum. -/
def maxOther (rates : List (String × ℚ)) (target : String) : ℚ :=
  match rates.filter (fun kv => decide (¬ kv.1 = target)) with
  | [] => 0
  | x :: xs => xs.foldl (fun m kv => if m < kv.2 then kv.2 else m) x.2

/-- `Trainer::targetMargin` (lines 560-571): `rate[target] − max(rate[others])`
with 0 defaults. -/
def targetMargin (rates : List (String × ℚ)) (target : String) : ℚ :=
  (alookup rates target).getD 0 - maxOther rates target

/-- `Trainer::computeReward` (lines 577-597); `expQ` abstracts `std::exp`
in the softplus mode.  Any mode other than `margin_linear` and
`softplus_margin` is the binary mode. -/
def computeReward (expQ : ℚ → ℚ) (cfg : TrainingConfig) (m : EpisodeMetrics)
    (target : String) : ℚ :=
  if cfg.reward_mode = "margin_linear" then
    let r := cfg.reward_gain * targetMargin m.rates target
    let r1 := if r < cfg.reward_min then cfg.reward_min else r
    if cfg.reward_max < r1 then cfg.reward_max else r1
  else if cfg.reward_mode = "softplus_margin" then
    let x := cfg.reward_gain * (cfg.margin_delta - targetMargin m.rates target)
    let r := 1 / (1 + expQ (-x))
    if cfg.reward_min < cfg.reward_max then
      let r1 := if r < cfg.reward_min then cfg.reward_min else r
      if cfg.reward_max < r1 then cfg.reward_max else r1
    else r
  else if m.winner = target ∧ cfg.margin_delta ≤ m.margin then cfg.reward_pos
  else cfg.reward_neg

/-- State threaded through one episode of `Trainer::computeEpisodeDelta`:
the live network, the trainer's persistent EMA rates, the per-episode
eligibility and detector, and the input sequence. -/
structure EpState where
  glia : GliaState
  rate : String → ℚ
  elig : String × String → ℚ
  det : EMADetector
  seq : InputSeq

/-- One tick of the episode loop of `Trainer::computeEpisodeDelta`
(lines 104-128): inject the sequence, step the network, record fired flags
and update the EMA rates, accumulate eligibility, update the detector,
advance the sequence. -/
def episodeTick (cfg : TrainingConfig) (outIds : List String) (es : EpState) : EpState :=
  let g2 := gliaStep (injectFromSeq es.glia es.seq)
  let fired : String → Bool := fun id =>
    if id ∈ allIds g2 then (g2.st id).just_fired else false
  let rate2 : String → ℚ := fun id =>
    if id ∈ allIds g2 then
      (1 - cfg.rate_alpha) * es.rate id + cfg.rate_alpha * (if fired id then 1 else 0)
    else es.rate id
  { glia := g2, rate := rate2,
    elig := hebbEligTick cfg.elig_lambda cfg.elig_post_use_rate g2 fired rate2 es.elig,
    det := updateDetector g2 outIds es.det,
    seq := seqAdvance es.seq }

/-- The update gate of the delta loop (`Trainer::computeEpisodeDelta`
lines 160-166). -/
def gateTake (cfg : TrainingConfig) (winner target toId : String) : Bool :=
  if cfg.update_gating = "winner_only" then
    (if winner = "" then true else decide (toId = winner))
  else if cfg.update_gating = "target_only" then decide (toId = target)
  else true

/-- The delta map built over existing edges
(`Trainer::computeEpisodeDelta` lines 156-172): each gated edge gains
`lr · reward · e`. -/
def deltaFold (cfg : TrainingConfig) (winner target : String) (reward : ℚ)
    (g : GliaState) (elig : String × String → ℚ) : String × String → ℚ :=
  (allIds g).foldl
    (fun e fromId =>
      ((g.st fromId).connections).foldl
        (fun e p =>
          Function.update e (fromId, p.1)
            (if gateTake cfg winner target p.1 then
               e (fromId, p.1) + cfg.lr * reward * elig (fromId, p.1)
             else e (fromId, p.1)))
        e)
    (fun _ => 0)

/-- The usage accumulation of the same loop (`(*usage_out)[k] += e`,
line 169), continuing the accumulator passed in by `trainBatch`. -/
def usageFold (cfg : TrainingConfig) (winner target : String) (g : GliaState)
    (elig usage0 : String × String → ℚ) : String × String → ℚ :=
  (allIds g).foldl
    (fun e fromId =>
      ((g.st fromId).connections).foldl
        (fun e p =>
          Function.update e (fromId, p.1)
            (if gateTake cfg winner target p.1 then
               e (fromId, p.1) + elig (fromId, p.1)
             else e (fromId, p.1)))
        e)
    usage0

/-- The results of `Trainer::computeEpisodeDelta`: the delta map, the
accumulated usage, the metrics, and the mutated trainer members (network
state, `neuron_rate`, `reward_baseline`). -/
structure EpisodeOut where
  delta : String × String → ℚ
  usage : String × String → ℚ
  metrics : EpisodeMetrics
  glia : GliaState
  rate : String → ℚ
  baseline : ℚ

/-- `Trainer::computeEpisodeDelta` (src/src/train/trainer.h lines 88-173):
run `warmup_ticks + decision_window` episode ticks from a fresh detector and
reset sequence, compile metrics, shape the reward (advantage baseline,
satisfied-skip), and build the gated delta and usage maps. -/
def computeEpisodeDelta (expQ : ℚ → ℚ) (cfg : TrainingConfig) (g : GliaState)
    (nr : String → ℚ) (baseline : ℚ) (usage0 : String × String → ℚ)
    (seq : InputSeq) (target : String) : EpisodeOut :=
  let outIds := collectOutputIDs g
  let es0 : EpState :=
    { glia := g, rate := nr, elig := fun _ => 0,
      det := { tr := freshTracker cfg.det_alpha, threshold := cfg.det_threshold,
               default_id := cfg.det_default },
      seq := seqReset seq }
  let es := (episodeTick cfg outIds)^[cfg.warmup_ticks + cfg.decision_window] es0
  let m : EpisodeMetrics :=
    { winner := detPredict es.det outIds, margin := trMargin es.det.tr outIds,
      rates := outIds.map (fun id => (id, trGetRate es.det.tr id)),
      ticks_run := cfg.warmup_ticks + cfg.decision_window }
  let raw := computeReward expQ cfg m target
  let reward1 := if cfg.use_advantage_baseline then raw - baseline else raw
  let baseline1 :=
    if cfg.use_advantage_baseline then
      (1 - cfg.baseline_beta) * baseline + cfg.baseline_beta * raw
    else baseline
  let reward :=
    if cfg.no_update_if_satisfied ∧ m.winner = target ∧ cfg.margin_delta ≤ m.margin then 0
    else reward1
  { delta := deltaFold cfg m.winner target reward es.glia es.elig,
    usage := usageFold cfg m.winner target es.glia es.elig usage0,
    metrics := m, glia := es.glia, rate := es.rate, baseline := baseline1 }

/-- `Neuron::setTransmitter` through the network: overwrite the weight of
an existing edge. -/
def setW (g : GliaState) (a toId : String) (w : ℚ) : GliaState :=
  { g with
    st :=
      Function.update g.st a
        { g.st a with connections := aset (g.st a).connections toId w } }

/-- The per-edge weight of `Trainer::applyDeltas` (lines 179-193): add the
scaled delta, apply weight decay, clip. -/
def deltaEdgeW (cfg : TrainingConfig) (delta : String × String → ℚ) (scale : ℚ)
    (k : String × String) (w : ℚ) : ℚ :=
  clampW cfg.weight_clip
    ((w + scale * delta k) - cfg.weight_decay * (w + scale * delta k))

/-- `Trainer::applyDeltas` (src/src/train/trainer.h lines 177-197): apply
the accumulated deltas edge by edge in `forEachNeuron` order. -/
def applyDeltas (cfg : TrainingConfig) (delta : String × String → ℚ) (scale : ℚ)
    (g : GliaState) : GliaState :=
  (allIds g).foldl
    (fun g1 a =>
      ((g1.st a).connections).foldl
        (fun g2 p => setW g2 a p.1 (deltaEdgeW cfg delta scale (a, p.1) p.2))
        g1)
    g

/-- The usage-boost block of `Trainer::trainBatch` (lines 216-233): each
edge gains `gain · avg_reward · usage` with the per-edge usage averaged over
the batch and clamped to [0, 1]. -/
def boostFold (cfg : TrainingConfig) (avg : ℚ) (usage : String × String → ℚ)
    (len : ℚ) (g : GliaState) : GliaState :=
  (allIds g).foldl
    (fun g1 a =>
      ((g1.st a).connections).foldl
        (fun g2 p =>
          let u0 := usage (a, p.1) / len
          let u1 := if u0 < 0 then 0 else if 1 < u0 then 1 else u0
          setW g2 a p.1 (p.2 + cfg.usage_boost_gain * avg * u1))
        g1)
    g

/-- `std::fabs`. -/
def fabsQ (w : ℚ) : ℚ :=
  if w < 0 then -w else w

/-- The edges of the network in `forEachNeuron` order, as
`(from, to, weight)` triples. -/
def edgesOf (g : GliaState) : List (String × String × ℚ) :=
  ((allIds g).map (fun a => ((g.st a).connections).map (fun p => (a, p.1, p.2)))).flatten

/-- The prune scan of `Trainer::trainBatch` (lines 236-253): a small weight
bumps its patience counter and is collected for removal once the counter
reaches `prune_patience`; any other weight resets its counter. -/
def pruneScan (cfg : TrainingConfig) (ctr : String × String → ℤ)
    (edges : List (String × String × ℚ)) : (String × String → ℤ) × List (String × String) :=
  edges.foldl
    (fun acc e =>
      if fabsQ e.2.2 < cfg.prune_epsilon then
        (Function.update acc.1 (e.1, e.2.1) (acc.1 (e.1, e.2.1) + 1),
         if cfg.prune_patience ≤ acc.1 (e.1, e.2.1) + 1 then acc.2 ++ [(e.1, e.2.1)]
         else acc.2)
      else (Function.update acc.1 (e.1, e.2.1) 0, acc.2))
    (ctr, [])

/-- `Neuron::removeConnection` through the network (no-op when the source
neuron does not exist, matching the `getNeuronById` null check). -/
def removeConn (g : GliaState) (a toId : String) : GliaState :=
  if a ∈ allIds g then
    { g with
      st :=
        Function.update g.st a
          { g.st a with
            connections := (g.st a).connections.filter (fun p => decide (¬ p.1 = toId)) } }
  else g

/-- `Neuron::addConnection` through the network. -/
def addConn (g : GliaState) (a toId : String) (w : ℚ) : GliaState :=
  { g with
    st :=
      Function.update g.st a
        { g.st a with connections := (g.st a).connections ++ [(toId, w)] } }

/-- The growth loop of `Trainer::trainBatch` (lines 259-280): bounded
random attempts (the RNG draws are the oracle `pick`, indexed by the
remaining attempt budget); an attempt adds an edge only when the topology
policy allows it, both endpoints exist, it is not a self-loop and the edge
is absent; the new weight is `init_weight` with the drawn sign. -/
def growLoop (cfg : TrainingConfig) (pick : ℕ → String × String × Bool)
    (target : ℤ) : ℕ → ℤ → GliaState → GliaState
  | 0, _, g => g
  | fuel + 1, grown, g =>
    if grown < target then
      let c := pick fuel
      if edgeAllowed cfg.topology c.1 c.2.1 = true ∧ ¬ c.1 = c.2.1 ∧
         c.1 ∈ allIds g ∧ c.2.1 ∈ allIds g ∧
         alookup (g.st c.1).connections c.2.1 = none then
        growLoop cfg pick target fuel (grown + 1)
          (addConn g c.1 c.2.1 (cfg.init_weight * (if c.2.2 then 1 else -1)))
      else growLoop cfg pick target fuel grown g
    else g

/-- The intrinsic-plasticity pass of `Trainer::trainBatch` (lines 283-293):
nudge each threshold toward the rate target and each leak (clamped to
[0, 1]) away from it, when the corresponding learning rate is nonzero. -/
def intrinsicFold (cfg : TrainingConfig) (nr : String → ℚ) (g : GliaState) : GliaState :=
  (allIds g).foldl
    (fun g1 id =>
      let r := nr id
      let th1 :=
        if ¬ cfg.eta_theta = 0 then (g1.st id).threshold + cfg.eta_theta * (r - cfg.r_target)
        else (g1.st id).threshold
      let lk0 := (g1.st id).balancer + cfg.eta_leak * (cfg.r_target - r)
      let lk1 := if lk0 < 0 then 0 else if 1 < lk0 then 1 else lk0
      let lk2 := if ¬ cfg.eta_leak = 0 then lk1 else (g1.st id).balancer
      { g1 with st := Function.update g1.st id { g1.st id with threshold := th1, balancer := lk2 } })
    g

/-- The inactive-neuron scan of `Trainer::trainBatch` (lines 295-324): a
neuron whose EMA rate stays below the threshold for `inactive_rate_patience`
batches has its weakest outgoing and/or incoming edges (by absolute weight,
up to `prune_inactive_max` each) collected for removal, and its counter is
reset. -/
def inactiveScan (cfg : TrainingConfig) (nr : String → ℚ) (g : GliaState)
    (ctr : String → ℤ) : (String → ℤ) × List (String × String) × List (String × String) :=
  (allIds g).foldl
    (fun acc id =>
      let c := if nr id < cfg.inactive_rate_threshold then acc.1 id + 1 else 0
      if cfg.inactive_rate_patience ≤ c then
        let outs :=
          (((g.st id).connections).mergeSort
            (fun a b => decide (fabsQ a.2 ≤ fabsQ b.2))).take cfg.prune_inactive_max.toNat
        let ins :=
          (((allIds g).filterMap
            (fun a => (alookup (g.st a).connections id).map (fun w => (a, w)))).mergeSort
            (fun a b => decide (fabsQ a.2 ≤ fabsQ b.2))).take cfg.prune_inactive_max.toNat
        (Function.update acc.1 id 0,
         acc.2.1 ++ (if cfg.prune_inactive_out then outs.map (fun p => (id, p.1)) else []),
         acc.2.2 ++ (if cfg.prune_inactive_in then ins.map (fun p => (p.1, id)) else []))
      else (Function.update acc.1 id c, acc.2))
    (ctr, [], [])

/-- The per-episode accumulator of `Trainer::trainBatch` (lines 203-212). -/
structure BatchAcc where
  glia : GliaState
  rate : String → ℚ
  baseline : ℚ
  sum_delta : String × String → ℚ
  sum_usage : String × String → ℚ
  sum_reward : ℚ

/-- The episode-loop body of `Trainer::trainBatch` (lines 206-212): run one
episode, add its delta map into the batch sum, and add its raw reward. -/
def batchStep (expQ : ℚ → ℚ) (cfg : TrainingConfig) (acc : BatchAcc)
    (item : InputSeq × String) : BatchAcc :=
  let r := computeEpisodeDelta expQ cfg acc.glia acc.rate acc.baseline acc.sum_usage
    item.1 item.2
  { glia := r.glia, rate := r.rate, baseline := r.baseline,
    sum_delta := fun k => acc.sum_delta k + r.delta k,
    sum_usage := r.usage,
    sum_reward := acc.sum_reward + computeReward expQ cfg r.metrics item.2 }

/-- `Trainer::trainBatch` (src/src/train/trainer.h lines 200-330): run every
episode accumulating deltas, usage and raw rewards; apply the summed deltas
scaled by `1/|batch|`; then the optional usage boost, the prune scan and its
removals, the bounded random growth, intrinsic plasticity, and the
inactive-neuron pruning. -/
def trainBatch (expQ : ℚ → ℚ) (pick : ℕ → String × String × Bool)
    (cfg : TrainingConfig) (batch : List (InputSeq × String))
    (ts : TrainerState) : TrainerState :=
  let acc :=
    batch.foldl (batchStep expQ cfg)
      { glia := ts.glia, rate := ts.neuron_rate, baseline := ts.reward_baseline,
        sum_delta := fun _ => 0, sum_usage := fun _ => 0, sum_reward := 0 }
  let scale : ℚ := if batch.length = 0 then 1 else 1 / (batch.length : ℚ)
  let g1 := applyDeltas cfg acc.sum_delta scale acc.glia
  let g2 :=
    if ¬ cfg.usage_boost_gain = 0 ∧ ¬ batch.length = 0 then
      boostFold cfg (acc.sum_reward / (batch.length : ℚ)) acc.sum_usage
        (batch.length : ℚ) g1
    else g1
  let pr := pruneScan cfg ts.prune_counter (edgesOf g2)
  let g3 := pr.2.foldl (fun g e => removeConn g e.1 e.2) g2
  let g4 :=
    if 0 < cfg.grow_edges then
      growLoop cfg pick cfg.grow_edges (cfg.grow_edges * 20).toNat 0 g3
    else g3
  let g5 := intrinsicFold cfg acc.rate g4
  let ia :=
    if 0 < cfg.inactive_rate_threshold ∧ 0 < cfg.inactive_rate_patience ∧
       0 < cfg.prune_inactive_max then
      inactiveScan cfg acc.rate g5 ts.inactive_counter
    else (ts.inactive_counter, [], [])
  let g6 := (ia.2.1 ++ ia.2.2).foldl (fun g e => removeConn g e.1 e.2) g5
  { ts with
    glia := g6, neuron_rate := acc.rate, reward_baseline := acc.baseline,
    prune_counter := pr.1, inactive_counter := ia.1 }

/-- A configuration in the family of claim C8 (binary reward mode with both
rewards zero) with a positive weight clip: defaults otherwise, weight decay
1/10, clip 1/2, and a zero-tick episode window. -/
def cfgC8c : TrainingConfig :=
  { cfgDef with
    reward_mode := "binary", reward_pos := 0, reward_neg := 0,
    weight_decay := 1/10, weight_clip := 1/2, warmup_ticks := 0,
    decision_window := 0, prune_epsilon := 0 }

/-- The benign C8 configuration: binary zero rewards with clip, prune,
growth, boost and inactive-pruning disabled. -/
def cfgC8w : TrainingConfig :=
  { cfgDef with
    reward_mode := "binary", reward_pos := 0, reward_neg := 0,
    weight_decay := 1/10, weight_clip := 0, prune_epsilon := 0,
    usage_boost_gain := 0, grow_edges := 0, inactive_rate_threshold := 0 }

/-- An input sequence with no events. -/
def seqC8 : InputSeq :=
  { events := [], current_tick := 0, loop := false }

section CoreLemmas

/-- Pointwise effect of the fire-transmission loop: the target `x` gains the
total outgoing weight aimed at it, and nothing else changes. -/
theorem fireDeposits_apply (conns : List (String × ℚ)) (net : NetState) (x : String) :
    fireDeposits conns net x = { net x with on_deck := (net x).on_deck + outW conns x } := by
  induction conns generalizing net with
  | nil => simp [fireDeposits, outW]
  | cons p tl ih =>
    obtain ⟨a, w⟩ := p
    show fireDeposits tl (deposit net a w) x = _
    rw [ih (deposit net a w)]
    by_cases hx : x = a
    · subst hx
      simp [deposit, receive, outW, NeuronState.mk.injEq, add_assoc]
    · simp [deposit, receive, outW, Function.update_noteq hx, NeuronState.mk.injEq,
        if_neg (show ¬a = x from fun h => hx h.symm)]

theorem clampQ_eq_max (x : ℚ) : clampQ x = max 0 x := by
  unfold clampQ
  rcases lt_or_ge x 0 with h | h
  · rw [if_pos h, max_eq_left h.le]
  · rw [if_neg (not_lt.mpr h), max_eq_right h]

theorem clampQ_nonneg (x : ℚ) : 0 ≤ clampQ x := by
  unfold clampQ
  split_ifs with h
  · exact le_rfl
  · exact not_lt.mp h

theorem on_deck_add_zero (x : NeuronState) :
    ({ x with on_deck := x.on_deck + 0 } : NeuronState) = x := by
  rw [add_zero]

/-- Structural form of the effect of a tick of `u` on another neuron: only
`on_deck` can change, by the deposit `u` sends when it fires. -/
theorem tickOne_ne_struct {net : NetState} {u x : String} (hx : x ≠ u) :
    (tickOne net u) x =
      { net x with on_deck := (net x).on_deck +
          (if FiresNow (net u) then outW (net u).connections x else 0) } := by
  unfold tickOne
  by_cases h1 : 0 < (net u).refractory
  · rw [if_pos h1, Function.update_noteq hx]
    have : ¬ FiresNow (net u) := fun h => h.1 h1
    rw [if_neg this, on_deck_add_zero]
  · by_cases h2 : (net u).threshold < clampQ ((net u).balancer * (net u).value + (net u).delta)
    · have hF : FiresNow (net u) := ⟨h1, h2⟩
      rw [if_neg h1, if_pos h2, fireDeposits_apply, Function.update_noteq hx, if_pos hF]
    · rw [if_neg h1, if_neg h2, Function.update_noteq hx]
      have : ¬ FiresNow (net u) := fun h => h2 h.2
      rw [if_neg this, on_deck_add_zero]

/-- The ticked neuron's own new state is a function of its old state alone. -/
theorem tickOne_self (net : NetState) (u : String) :
    (tickOne net u) u = tickSelf (net u) u := by
  unfold tickOne tickSelf
  by_cases h1 : 0 < (net u).refractory
  · rw [if_pos h1, if_pos h1, Function.update_same]
  · by_cases h2 : (net u).threshold < clampQ ((net u).balancer * (net u).value + (net u).delta)
    · rw [if_neg h1, if_neg h1, if_pos h2, if_pos h2, fireDeposits_apply,
        Function.update_same]
      simp [NeuronState.mk.injEq]
    · rw [if_neg h1, if_neg h1, if_neg h2, if_neg h2, Function.update_same]

/-- One tick, described pointwise (the bridge between the foldl-based
embedding and per-neuron reasoning). -/
theorem tickOne_apply (net : NetState) (u : String) :
    tickOne net u = tickClaimed net u := by
  funext x
  by_cases hx : x = u
  · subst hx
    rw [tickOne_self]
    unfold tickSelf tickClaimed
    simp only [eq_self_iff_true, if_true, clampQ_eq_max]
  · rw [tickOne_ne_struct hx]
    unfold tickClaimed FiresNow
    simp only [if_neg hx, clampQ_eq_max]
    by_cases h1 : 0 < (net u).refractory
    · simp [h1, on_deck_add_zero]
    · by_cases h2 : (net u).threshold < max 0 ((net u).balancer * (net u).value + (net u).delta)
      · simp [h1, h2]
      · simp [h1, h2, on_deck_add_zero]

/-- A tick of `u` leaves every other neuron's value, firing flag, refractory
counter and `delta` untouched (only `on_deck` can receive deposits). -/
theorem tickOne_ne_fields {net : NetState} {u x : String} (hx : x ≠ u) :
    ((tickOne net u) x).value = (net x).value ∧
    ((tickOne net u) x).just_fired = (net x).just_fired ∧
    ((tickOne net u) x).refractory = (net x).refractory ∧
    ((tickOne net u) x).delta = (net x).delta := by
  rw [tickOne_ne_struct hx]
  exact ⟨rfl, rfl, rfl, rfl⟩

/-- Ticking never changes any neuron's connection list. -/
theorem tickOne_connections (net : NetState) (u x : String) :
    ((tickOne net u) x).connections = (net x).connections := by
  by_cases hx : x = u
  · subst hx
    rw [tickOne_self]
    unfold tickSelf
    split_ifs <;> rfl
  · rw [tickOne_ne_struct hx]

/-- Ticking never changes any neuron's resting, leak or threshold
parameters. -/
theorem tickOne_params (net : NetState) (u x : String) :
    ((tickOne net u) x).resting = (net x).resting ∧
    ((tickOne net u) x).balancer = (net x).balancer ∧
    ((tickOne net u) x).threshold = (net x).threshold := by
  by_cases hx : x = u
  · subst hx
    rw [tickOne_self]
    unfold tickSelf
    split_ifs <;> exact ⟨rfl, rfl, rfl⟩
  · rw [tickOne_ne_struct hx]
    exact ⟨rfl, rfl, rfl⟩

/-- The ticked neuron's observable core agrees with the deposit-free
single-neuron transition (`on_deck` self-deposits do not reach the core). -/
theorem tickSelf_core (n : NeuronState) (u : String) :
    CoreEq (tickSelf n u) (tickCore n) := by
  unfold tickSelf tickCore CoreEq
  by_cases h1 : 0 < n.refractory
  · simp [h1]
  · by_cases h2 : n.threshold < clampQ (n.balancer * n.value + n.delta)
    · simp [h1, h2]
    · simp [h1, h2]

/-- `tickCore`'s observable output depends only on the listed fields (not on
`on_deck`, which merely becomes the next `delta`). -/
theorem tickCore_congr {a b : NeuronState}
    (hv : a.value = b.value) (hd : a.delta = b.delta) (hr : a.refractory = b.refractory)
    (hb : a.balancer = b.balancer) (ht : a.threshold = b.threshold)
    (hre : a.resting = b.resting) : CoreEq (tickCore a) (tickCore b) := by
  unfold tickCore CoreEq
  rw [hv, hd, hr, hb, ht, hre]
  split_ifs <;> simp

/-- The fire decision depends only on the listed fields. -/
theorem firesNow_congr {a b : NeuronState}
    (hv : a.value = b.value) (hd : a.delta = b.delta) (hr : a.refractory = b.refractory)
    (hb : a.balancer = b.balancer) (ht : a.threshold = b.threshold) :
    FiresNow a ↔ FiresNow b := by
  unfold FiresNow
  rw [hv, hd, hr, hb, ht]

/-- No entry keyed `x` means no weight flows to `x`. -/
theorem outW_eq_zero {conns : List (String × ℚ)} {x : String}
    (h : ∀ w : ℚ, (x, w) ∉ conns) : outW conns x = 0 := by
  induction conns with
  | nil => simp [outW]
  | cons p tl ih =>
    obtain ⟨a, w⟩ := p
    have ha : ¬ a = x := by
      intro hax
      exact h w (by simp [hax])
    have htl : ∀ w : ℚ, (x, w) ∉ tl := fun w' hw' => h w' (List.mem_cons_of_mem _ hw')
    simp [outW, if_neg ha] at *
    exact ih htl

theorem alookup_append_single_ne {κ α : Type} [DecidableEq κ] (l : List (κ × α))
    {k id : κ} (v : α) (h : k ≠ id) : alookup (l ++ [(k, v)]) id = alookup l id := by
  induction l with
  | nil => simp [alookup, if_neg h]
  | cons p tl ih =>
    obtain ⟨a, w⟩ := p
    by_cases ha : a = id
    · simp [alookup, if_pos ha]
    · simp [alookup, if_neg ha, ih]

theorem alookup_aset_ne {κ α : Type} [DecidableEq κ] (l : List (κ × α))
    {k id : κ} (v : α) (h : k ≠ id) : alookup (aset l k v) id = alookup l id := by
  induction l with
  | nil => rfl
  | cons p tl ih =>
    obtain ⟨a, w⟩ := p
    show alookup ((if a = k then (k, v) else (a, w)) :: aset tl k v) id = _
    by_cases hak : a = k
    · subst hak
      rw [if_pos rfl]
      show (if a = id then some v else alookup (aset tl a v) id) =
        (if a = id then some w else alookup tl id)
      rw [if_neg h, if_neg h, ih]
    · rw [if_neg hak]
      show (if a = id then some w else alookup (aset tl k v) id) =
        (if a = id then some w else alookup tl id)
      by_cases ha : a = id
      · rw [if_pos ha, if_pos ha]
      · rw [if_neg ha, if_neg ha, ih]

theorem alookup_aupsert_ne {κ α : Type} [DecidableEq κ] (l : List (κ × α))
    {k id : κ} (v : α) (h : k ≠ id) : alookup (aupsert l k v) id = alookup l id := by
  unfold aupsert
  split_ifs
  · exact alookup_aset_ne l v h
  · exact alookup_append_single_ne l v h

/-- A neuron id never passed to `update` stays untracked. -/
theorem applyUpdates_untracked (us : List (String × Bool)) :
    ∀ (t : RateTracker) (id : String), id ∉ us.map Prod.fst →
    alookup t.rates id = none → alookup (applyUpdates t us).rates id = none := by
  induction us with
  | nil => intro t id _ h0; exact h0
  | cons p tl ih =>
    intro t id hmem h0
    obtain ⟨k, f⟩ := p
    have hk : k ≠ id := by
      intro hk
      exact hmem (by simp [hk])
    have htl : id ∉ tl.map Prod.fst := fun hh => hmem (by simp [hh])
    show alookup (applyUpdates (trUpdate t k f) tl).rates id = none
    apply ih (trUpdate t k f) id htl
    simp only [trUpdate]
    rw [alookup_aupsert_ne _ _ hk]
    exact h0

theorem farFrom_anti {E : String → String → Prop} {s n : String} {m m' : ℕ}
    (h : m' ≤ m) (hf : FarFrom E s n m) : FarFrom E s n m' :=
  fun k hk => le_trans h (hf k hk)

theorem farFrom_edge {E : String → String → Prop} {s a b : String} {m : ℕ}
    (he : E a b) (hf : FarFrom E s b (m + 1)) : FarFrom E s a m := by
  intro k hk
  have := hf (k + 1) (ReachesN.tail hk he)
  omega

theorem farFrom_one_ne {E : String → String → Prop} {s n : String}
    (hf : FarFrom E s n 1) : n ≠ s := by
  intro h
  subst h
  exact absurd (hf 0 ReachesN.refl) (by omega)

theorem farFrom_one_of_ne {E : String → String → Prop} {s n : String}
    (h : n ≠ s) : FarFrom E s n 1 := by
  intro k hk
  cases hk with
  | refl => exact absurd rfl h
  | tail hp he => omega

theorem coreEq_of_eq {a b : NeuronState} (h : a = b) : CoreEq a b := by
  rw [h]; exact ⟨rfl, rfl, rfl⟩

theorem coreEq_symm {a b : NeuronState} (h : CoreEq a b) : CoreEq b a :=
  ⟨h.1.symm, h.2.1.symm, h.2.2.symm⟩

theorem coreEq_trans {a b c : NeuronState} (h1 : CoreEq a b) (h2 : CoreEq b c) : CoreEq a c :=
  ⟨h1.1.trans h2.1, h1.2.1.trans h2.2.1, h1.2.2.trans h2.2.2⟩

theorem stepOrder_connections (l : List String) (net : NetState) (x : String) :
    ((stepOrder l net) x).connections = (net x).connections := by
  induction l generalizing net with
  | nil => rfl
  | cons u tl ih =>
    show ((stepOrder tl (tickOne net u)) x).connections = _
    rw [ih, tickOne_connections]

theorem stepOrder_params (l : List String) (net : NetState) (x : String) :
    ((stepOrder l net) x).resting = (net x).resting ∧
    ((stepOrder l net) x).balancer = (net x).balancer ∧
    ((stepOrder l net) x).threshold = (net x).threshold := by
  induction l generalizing net with
  | nil => exact ⟨rfl, rfl, rfl⟩
  | cons u tl ih =>
    obtain ⟨h1, h2, h3⟩ := ih (tickOne net u)
    obtain ⟨g1, g2, g3⟩ := tickOne_params net u x
    exact ⟨h1.trans g1, h2.trans g2, h3.trans g3⟩

/-- Neurons not in the ticked prefix keep their integration-relevant fields. -/
theorem stepOrder_fields_unchanged {l : List String} {u : String} (hu : u ∉ l)
    (net : NetState) :
    ((stepOrder l net) u).value = (net u).value ∧
    ((stepOrder l net) u).just_fired = (net u).just_fired ∧
    ((stepOrder l net) u).refractory = (net u).refractory ∧
    ((stepOrder l net) u).delta = (net u).delta := by
  induction l generalizing net with
  | nil => exact ⟨rfl, rfl, rfl, rfl⟩
  | cons a tl ih =>
    have hne : u ≠ a := fun h => hu (h ▸ List.mem_cons_self a tl)
    have htl : u ∉ tl := fun h => hu (List.mem_cons_of_mem a h)
    obtain ⟨h1, h2, h3, h4⟩ := ih htl (tickOne net a)
    obtain ⟨g1, g2, g3, g4⟩ := @tickOne_ne_fields net a u hne
    exact ⟨h1.trans g1, h2.trans g2, h3.trans g3, h4.trans g4⟩

section Noninterference

variable {E : String → String → Prop} {s : String} {conns : String → List (String × ℚ)}
variable {τ : ℕ}

theorem midInv_mono {P Q : String → Prop} {A B : NetState}
    (h : ∀ n, P n → Q n) (hm : MidInv E s τ P A B) : MidInv E s τ Q A B := by
  intro n
  exact ⟨(hm n).1, (hm n).2.1, fun h1 hq => (hm n).2.2 h1 (fun hp => hq (h n hp))⟩

theorem midInv_tick {P : String → Prop} {A B : NetState} {u : String}
    (hE : ∀ a b (w : ℚ), (b, w) ∈ conns a → E a b)
    (hcA : ∀ x, (A x).connections = conns x)
    (hcB : ∀ x, (B x).connections = conns x)
    (hp : ∀ x, SameParams (A x) (B x))
    (hmi : MidInv E s τ P A B)
    (hu : ¬ P u) :
    MidInv E s τ (fun n => P n ∨ n = u) (tickOne A u) (tickOne B u) := by
  -- facts about the ticked neuron when it is at least τ+1 hops from s
  have hAu : FarFrom E s u (τ + 1) → CoreEq (A u) (B u) := (hmi u).2.1
  have hdu : FarFrom E s u (τ + 1) → (A u).delta = (B u).delta :=
    fun h => (hmi u).2.2 h hu
  have hfire : FarFrom E s u (τ + 1) → (FiresNow (A u) ↔ FiresNow (B u)) := by
    intro h
    exact firesNow_congr (hAu h).1 (hdu h) (hAu h).2.2 (hp u).2.1 (hp u).2.2.1
  -- when a neuron is τ+2 hops away, the ticked neuron sends it nothing that differs
  have hdep : ∀ n, n ≠ u → FarFrom E s n (τ + 2) →
      (if FiresNow (A u) then outW (A u).connections n else 0) =
      (if FiresNow (B u) then outW (B u).connections n else 0) := by
    intro n hnu h2
    by_cases hfar : FarFrom E s u (τ + 1)
    · rw [hcA, hcB]
      by_cases hA : FiresNow (A u)
      · rw [if_pos hA, if_pos ((hfire hfar).mp hA)]
      · rw [if_neg hA, if_neg (fun hB => hA ((hfire hfar).mpr hB))]
    · have hnoedge : ∀ w : ℚ, (n, w) ∉ conns u := by
        intro w hw
        exact hfar (farFrom_edge (hE u n w hw) h2)
      have hz : outW (conns u) n = 0 := outW_eq_zero hnoedge
      rw [hcA, hcB, hz]
      simp
  intro n
  refine ⟨?_, ?_, ?_⟩
  · -- full agreement τ+2 hops away
    intro h2
    by_cases hnu : n = u
    · subst hnu
      have hful : A n = B n := (hmi n).1 h2
      rw [tickOne_self, tickOne_self, hful]
    · have hful : A n = B n := (hmi n).1 h2
      rw [tickOne_ne_struct hnu, tickOne_ne_struct hnu, hful, hdep n hnu h2]
  · -- core agreement τ+1 hops away
    intro h1
    by_cases hnu : n = u
    · subst hnu
      rw [tickOne_self, tickOne_self]
      refine coreEq_trans (tickSelf_core _ _) (coreEq_trans ?_ (coreEq_symm (tickSelf_core _ _)))
      exact tickCore_congr (hAu h1).1 (hdu h1) (hAu h1).2.2 (hp n).2.1 (hp n).2.2.1 (hp n).1
    · rw [tickOne_ne_struct hnu, tickOne_ne_struct hnu]
      exact (hmi n).2.1 h1
  · -- deltas of not-yet-ticked neurons τ+1 hops away
    intro h1 hq
    have hnu : n ≠ u := fun h => hq (Or.inr h)
    have hnp : ¬ P n := fun h => hq (Or.inl h)
    rw [tickOne_ne_struct hnu, tickOne_ne_struct hnu]
    exact (hmi n).2.2 h1 hnp

theorem midInv_fold
    (hE : ∀ a b (w : ℚ), (b, w) ∈ conns a → E a b) :
    ∀ (l : List String) (P : String → Prop) (A B : NetState),
    (∀ x, (A x).connections = conns x) → (∀ x, (B x).connections = conns x) →
    (∀ x, SameParams (A x) (B x)) → l.Nodup → (∀ x ∈ l, ¬ P x) →
    MidInv E s τ P A B →
    MidInv E s τ (fun n => P n ∨ n ∈ l) (stepOrder l A) (stepOrder l B) := by
  intro l
  induction l with
  | nil =>
    intro P A B _ _ _ _ _ hmi
    exact midInv_mono (fun n hp => Or.inl hp) hmi
  | cons u tl ih =>
    intro P A B hcA hcB hp hnd hl hmi
    have hstep := midInv_tick hE hcA hcB hp hmi (hl u (List.mem_cons_self u tl))
    have hcA' : ∀ x, ((tickOne A u) x).connections = conns x := by
      intro x; rw [tickOne_connections]; exact hcA x
    have hcB' : ∀ x, ((tickOne B u) x).connections = conns x := by
      intro x; rw [tickOne_connections]; exact hcB x
    have hp' : ∀ x, SameParams ((tickOne A u) x) ((tickOne B u) x) := by
      intro x
      obtain ⟨a1, a2, a3⟩ := tickOne_params A u x
      obtain ⟨b1, b2, b3⟩ := tickOne_params B u x
      exact ⟨a1.trans ((hp x).1.trans b1.symm), a2.trans ((hp x).2.1.trans b2.symm),
        a3.trans ((hp x).2.2.1.trans b3.symm), (hcA' x).trans (hcB' x).symm⟩
    have hnd' : tl.Nodup := (List.nodup_cons.mp hnd).2
    have hu' : u ∉ tl := (List.nodup_cons.mp hnd).1
    have hl' : ∀ x ∈ tl, ¬ (P x ∨ x = u) := by
      intro x hx
      rintro (hpx | rfl)
      · exact hl x (List.mem_cons_of_mem u hx) hpx
      · exact hu' hx
    have := ih (fun n => P n ∨ n = u) (tickOne A u) (tickOne B u) hcA' hcB' hp' hnd' hl' hstep
    refine midInv_mono ?_ this
    rintro n ((hpn | rfl) | hmem)
    · exact Or.inl hpn
    · exact Or.inr (List.mem_cons_self n tl)
    · exact Or.inr (List.mem_cons_of_mem u hmem)

theorem agreeVia_step {A B : NetState} {l : List String}
    (hE : ∀ a b (w : ℚ), (b, w) ∈ conns a → E a b)
    (hcA : ∀ x, (A x).connections = conns x)
    (hcB : ∀ x, (B x).connections = conns x)
    (hp : ∀ x, SameParams (A x) (B x))
    (hnd : l.Nodup)
    (ha : AgreeVia E s τ A B) :
    AgreeVia E s (τ + 1) (stepOrder l A) (stepOrder l B) := by
  have h0 : MidInv E s τ (fun _ => False) A B := by
    intro n
    refine ⟨?_, ?_, ?_⟩
    · intro h2; exact (ha n).1 (farFrom_anti (by omega) h2)
    · intro h1; exact coreEq_of_eq ((ha n).1 h1)
    · intro h1 _; rw [(ha n).1 h1]
  have h2 := midInv_fold hE l (fun _ => False) A B hcA hcB hp hnd (fun _ _ h => h) h0
  intro n
  exact ⟨(h2 n).1, (h2 n).2.1⟩

theorem agreeVia_run
    (hE : ∀ a b (w : ℚ), (b, w) ∈ conns a → E a b) :
    ∀ (orders : List (List String)) (τ : ℕ) (A B : NetState),
    (∀ x, (A x).connections = conns x) → (∀ x, (B x).connections = conns x) →
    (∀ x, SameParams (A x) (B x)) → (∀ o ∈ orders, o.Nodup) →
    AgreeVia E s τ A B →
    AgreeVia E s (τ + orders.length) (runSteps orders A) (runSteps orders B) := by
  intro orders
  induction orders with
  | nil => intro τ A B _ _ _ _ ha; exact ha
  | cons o os ih =>
    intro τ A B hcA hcB hp hnd ha
    have hstep := agreeVia_step hE hcA hcB hp (hnd o (List.mem_cons_self o os)) ha
    have hcA' : ∀ x, ((stepOrder o A) x).connections = conns x := by
      intro x; rw [stepOrder_connections]; exact hcA x
    have hcB' : ∀ x, ((stepOrder o B) x).connections = conns x := by
      intro x; rw [stepOrder_connections]; exact hcB x
    have hp' : ∀ x, SameParams ((stepOrder o A) x) ((stepOrder o B) x) := by
      intro x
      obtain ⟨a1, a2, a3⟩ := stepOrder_params o A x
      obtain ⟨b1, b2, b3⟩ := stepOrder_params o B x
      exact ⟨a1.trans ((hp x).1.trans b1.symm), a2.trans ((hp x).2.1.trans b2.symm),
        a3.trans ((hp x).2.2.1.trans b3.symm), (hcA' x).trans (hcB' x).symm⟩
    have hnd' : ∀ q ∈ os, q.Nodup := fun q hq => hnd q (List.mem_cons_of_mem o hq)
    have := ih (τ + 1) (stepOrder o A) (stepOrder o B) hcA' hcB' hp' hnd' hstep
    have harith : τ + 1 + os.length = τ + (os.length + 1) := by omega
    rw [harith] at this
    exact this

/-- Before any step runs, the injected and uninjected networks agree
everywhere except in the sensory neuron's `on_deck`. -/
theorem agreeVia_inject (net0 : NetState) (amt : ℚ) :
    AgreeVia E s 0 net0 (injectAmt net0 s amt) := by
  intro n
  constructor
  · intro h1
    have hns : n ≠ s := farFrom_one_ne h1
    unfold injectAmt
    rw [Function.update_noteq hns]
  · intro _
    by_cases hns : n = s
    · subst hns
      unfold injectAmt
      rw [Function.update_same]
      exact ⟨rfl, rfl, rfl⟩
    · unfold injectAmt
      rw [Function.update_noteq hns]
      exact coreEq_of_eq rfl

end Noninterference

/-- Folding a per-neuron in-place update over a duplicate-free id list
touches each neuron once. -/
theorem foldl_update_apply (f : String → NeuronState → NeuronState) :
    ∀ (ids : List String), ids.Nodup → ∀ (st : NetState) (x : String),
    (ids.foldl (fun st id => Function.update st id (f id (st id))) st) x =
      (if x ∈ ids then f x (st x) else st x) := by
  intro ids
  induction ids with
  | nil => intro _ st x; simp
  | cons a tl ih =>
    intro hnd st x
    have hnd' : tl.Nodup := (List.nodup_cons.mp hnd).2
    have ha : a ∉ tl := (List.nodup_cons.mp hnd).1
    show (tl.foldl _ (Function.update st a (f a (st a)))) x = _
    rw [ih hnd' (Function.update st a (f a (st a))) x]
    by_cases hx : x = a
    · subst hx
      rw [if_neg (fun h => ha h), Function.update_same, if_pos (List.mem_cons_self x tl)]
    · simp only [Function.update_noteq hx]
      by_cases hm : x ∈ tl
      · rw [if_pos hm, if_pos (List.mem_cons_of_mem a hm)]
      · rw [if_neg hm, if_neg (by simp [hx, hm])]

/-- Looking up after filtering on keys. -/
theorem alookup_filter_key {α : Type} (q : String → Bool) (l : List (String × α)) (b : String) :
    alookup (l.filter (fun p => q p.1)) b = (if q b then alookup l b else none) := by
  induction l with
  | nil => simp [alookup]
  | cons p tl ih =>
    obtain ⟨k, v⟩ := p
    by_cases hk : q k
    · rw [List.filter_cons_of_pos (by simpa using hk)]
      by_cases hkb : k = b
      · subst hkb
        simp [alookup, hk]
      · simp [alookup, hkb, ih]
    · rw [List.filter_cons_of_neg (by simpa using hk)]
      by_cases hkb : k = b
      · subst hkb
        simp [alookup, hk, ih]
      · simp [alookup, hkb, ih]

theorem alookup_append_single_self {α : Type} (l : List (String × α)) (k : String) (v : α)
    (h : alookup l k = none) : alookup (l ++ [(k, v)]) k = some v := by
  induction l with
  | nil => simp [alookup]
  | cons p tl ih =>
    obtain ⟨a, w⟩ := p
    show (if a = k then some w else alookup (tl ++ [(k, v)]) k) = some v
    by_cases ha : a = k
    · exfalso
      have : alookup ((a, w) :: tl) k = some w := by
        show (if a = k then some w else alookup tl k) = some w
        rw [if_pos ha]
      rw [h] at this
      exact Option.noConfusion this
    · rw [if_neg ha]
      apply ih
      have : alookup ((a, w) :: tl) k = alookup tl k := by
        show (if a = k then some w else alookup tl k) = alookup tl k
        rw [if_neg ha]
      rw [← this]
      exact h

theorem alookup_aset_self {α : Type} (l : List (String × α)) (k : String) (v : α)
    (h : (alookup l k).isSome) : alookup (aset l k v) k = some v := by
  induction l with
  | nil => simp [alookup] at h
  | cons p tl ih =>
    obtain ⟨a, w⟩ := p
    show alookup ((if a = k then (k, v) else (a, w)) :: aset tl k v) k = some v
    by_cases ha : a = k
    · rw [if_pos ha]
      show (if k = k then some v else alookup (aset tl k v) k) = some v
      rw [if_pos rfl]
    · rw [if_neg ha]
      show (if a = k then some w else alookup (aset tl k v) k) = some v
      rw [if_neg ha]
      apply ih
      have : alookup ((a, w) :: tl) k = alookup tl k := by
        show (if a = k then some w else alookup tl k) = alookup tl k
        rw [if_neg ha]
      rw [this] at h
      exact h

theorem applyEdgeRec_allIds (g : GliaState) (e : EdgeRec) :
    allIds (applyEdgeRec g e) = allIds g := by
  unfold applyEdgeRec
  split_ifs <;> rfl

theorem applyEdgeRec_lookup_other {g : GliaState} {e : EdgeRec} {a b : String}
    (h : ¬ (a = e.src ∧ b = e.dst)) :
    alookup ((applyEdgeRec g e).st a).connections b = alookup (g.st a).connections b := by
  unfold applyEdgeRec
  split_ifs with hm
  · dsimp only
    by_cases ha : a = e.src
    · subst ha
      have hb : b ≠ e.dst := fun hb => h ⟨rfl, hb⟩
      rw [Function.update_same]
      dsimp only
      cases hcl : alookup (g.st e.src).connections e.dst with
      | none =>
        exact alookup_append_single_ne _ _ (fun hh => hb hh.symm)
      | some w0 =>
        exact alookup_aset_ne _ _ (fun hh => hb hh.symm)
    · rw [Function.update_noteq ha]
  · rfl

theorem applyEdgeRec_lookup_self {g : GliaState} {e : EdgeRec}
    (hm : e.src ∈ allIds g ∧ e.dst ∈ allIds g) :
    alookup ((applyEdgeRec g e).st e.src).connections e.dst = some e.w := by
  unfold applyEdgeRec
  rw [if_pos hm]
  dsimp only
  rw [Function.update_same]
  dsimp only
  cases hcl : alookup (g.st e.src).connections e.dst with
  | none =>
    exact alookup_append_single_self _ _ _ hcl
  | some w0 =>
    exact alookup_aset_self _ _ _ (by rw [hcl]; rfl)

theorem edgesFold_lookup :
    ∀ (edges : List EdgeRec) (g : GliaState) (a b : String),
    (edges.map (fun e => (e.src, e.dst))).Nodup →
    (∀ e ∈ edges, e.src ∈ allIds g ∧ e.dst ∈ allIds g) →
    alookup ((edges.foldl applyEdgeRec g).st a).connections b =
      (match edges.find? (fun e => decide (e.src = a ∧ e.dst = b)) with
        | some e => some e.w
        | none => alookup (g.st a).connections b) := by
  intro edges
  induction edges with
  | nil => intro g a b _ _; rfl
  | cons e tl ih =>
    intro g a b hnd hp
    have hnd' : (tl.map (fun e => (e.src, e.dst))).Nodup := (List.nodup_cons.mp hnd).2
    have hkey : (e.src, e.dst) ∉ tl.map (fun e => (e.src, e.dst)) := (List.nodup_cons.mp hnd).1
    have hp0 := hp e (List.mem_cons_self e tl)
    have hp' : ∀ e' ∈ tl, e'.src ∈ allIds (applyEdgeRec g e) ∧ e'.dst ∈ allIds (applyEdgeRec g e) := by
      intro e' he'
      rw [applyEdgeRec_allIds]
      exact hp e' (List.mem_cons_of_mem e he')
    show alookup ((tl.foldl applyEdgeRec (applyEdgeRec g e)).st a).connections b = _
    rw [ih (applyEdgeRec g e) a b hnd' hp']
    by_cases hab : a = e.src ∧ b = e.dst
    · obtain ⟨ha, hb⟩ := hab
      have hfind : tl.find? (fun e' => decide (e'.src = a ∧ e'.dst = b)) = none := by
        rw [List.find?_eq_none]
        intro x hx hdec
        apply hkey
        have h2 : x.src = a ∧ x.dst = b := of_decide_eq_true hdec
        have hxk : (x.src, x.dst) = (e.src, e.dst) := by rw [h2.1, h2.2, ha, hb]
        rw [← hxk]
        exact List.mem_map_of_mem _ hx
      rw [hfind]
      have hhead : (e :: tl).find? (fun e' => decide (e'.src = a ∧ e'.dst = b)) = some e := by
        rw [List.find?_cons_of_pos]
        exact decide_eq_true ⟨ha.symm, hb.symm⟩
      rw [hhead]
      show alookup ((applyEdgeRec g e).st a).connections b = some e.w
      rw [ha, hb]
      exact applyEdgeRec_lookup_self hp0
    · have hhead : (e :: tl).find? (fun e' => decide (e'.src = a ∧ e'.dst = b)) =
          tl.find? (fun e' => decide (e'.src = a ∧ e'.dst = b)) := by
        rw [List.find?_cons_of_neg]
        simp only [decide_eq_true_eq]
        intro hc
        exact hab ⟨hc.1.symm, hc.2.symm⟩
      rw [hhead]
      cases tl.find? (fun e' => decide (e'.src = a ∧ e'.dst = b)) with
      | some e' => rfl
      | none => exact applyEdgeRec_lookup_other hab

theorem removeAbsent_allIds (s : Snapshot) (g : GliaState) :
    allIds (removeAbsent s g) = allIds g := rfl

theorem removeAbsent_lookup (s : Snapshot) (g : GliaState) (a b : String)
    (hnd : (allIds g).Nodup) (ha : a ∈ allIds g) :
    alookup ((removeAbsent s g).st a).connections b =
      (if snapHasEdge s a b then alookup (g.st a).connections b else none) := by
  have h1 : (removeAbsent s g).st a =
      (if a ∈ allIds g then
        { g.st a with
          connections := (g.st a).connections.filter (fun p => snapHasEdge s a p.1) }
       else g.st a) :=
    foldl_update_apply
      (fun id n => { n with connections := n.connections.filter (fun p => snapHasEdge s id p.1) })
      (allIds g) hnd g.st a
  rw [h1, if_pos ha]
  exact alookup_filter_key (fun k => snapHasEdge s a k) (g.st a).connections b

theorem snapHasEdge_false_of_find_none {s : Snapshot} {a b : String}
    (h : s.edges.find? (fun e => decide (e.src = a ∧ e.dst = b)) = none) :
    snapHasEdge s a b = false := by
  unfold snapHasEdge
  rw [List.find?_eq_none] at h
  rw [List.any_eq_false]
  exact fun e he => by simpa using h e he

theorem neuronsFold_st_other :
    ∀ (recs : List NeuronRec) (g : GliaState) (x : String),
    x ∉ recs.map NeuronRec.nid →
    (recs.foldl applyNeuronRec g).st x = g.st x := by
  intro recs
  induction recs with
  | nil => intro g x _; rfl
  | cons r tl ih =>
    intro g x hx
    have hx1 : x ≠ r.nid := fun h => hx (by simp [h])
    have hx2 : x ∉ tl.map NeuronRec.nid := fun h => hx (by simp [h])
    show (tl.foldl applyNeuronRec (applyNeuronRec g r)).st x = g.st x
    rw [ih (applyNeuronRec g r) x hx2]
    unfold applyNeuronRec
    split_ifs
    · dsimp only
      rw [Function.update_noteq hx1]
    · rfl

theorem applyNeuronRec_allIds (g : GliaState) (r : NeuronRec) :
    allIds (applyNeuronRec g r) = allIds g := by
  unfold applyNeuronRec
  split_ifs <;> rfl

theorem neuronsFold_connections :
    ∀ (recs : List NeuronRec) (g : GliaState) (x : String),
    ((recs.foldl applyNeuronRec g).st x).connections = (g.st x).connections := by
  intro recs
  induction recs with
  | nil => intro g x; rfl
  | cons r tl ih =>
    intro g x
    show ((tl.foldl applyNeuronRec (applyNeuronRec g r)).st x).connections = _
    rw [ih]
    unfold applyNeuronRec
    split_ifs with hm
    · dsimp only
      by_cases hx : x = r.nid
      · subst hx; rw [Function.update_same]
      · rw [Function.update_noteq hx]
    · rfl

theorem neuronsFold_params :
    ∀ (recs : List NeuronRec) (g : GliaState),
    (recs.map NeuronRec.nid).Nodup →
    (∀ r ∈ recs, r.nid ∈ allIds g) →
    ∀ r ∈ recs,
      ((recs.foldl applyNeuronRec g).st r.nid).threshold = r.thr ∧
      ((recs.foldl applyNeuronRec g).st r.nid).balancer = r.leak := by
  intro recs
  induction recs with
  | nil => intro g _ _ r hr; exact absurd hr (List.not_mem_nil r)
  | cons r0 tl ih =>
    intro g hnd hp r hr
    have hnd' : (tl.map NeuronRec.nid).Nodup := (List.nodup_cons.mp hnd).2
    have hkey : r0.nid ∉ tl.map NeuronRec.nid := (List.nodup_cons.mp hnd).1
    have hp' : ∀ r' ∈ tl, r'.nid ∈ allIds (applyNeuronRec g r0) := by
      intro r' h
      rw [applyNeuronRec_allIds]
      exact hp r' (List.mem_cons_of_mem r0 h)
    rcases List.mem_cons.mp hr with rfl | hmem
    · show ((tl.foldl applyNeuronRec (applyNeuronRec g r)).st r.nid).threshold = r.thr ∧
        ((tl.foldl applyNeuronRec (applyNeuronRec g r)).st r.nid).balancer = r.leak
      rw [neuronsFold_st_other tl (applyNeuronRec g r) r.nid hkey]
      unfold applyNeuronRec
      rw [if_pos (hp r (List.mem_cons_self r tl))]
      dsimp only
      rw [Function.update_same]
      exact ⟨rfl, rfl⟩
    · exact ih (applyNeuronRec g r0) hnd' hp' r hmem

/-- One neuron's inner eligibility loop, described pointwise: each of its
edges' keys is combined once with the map's previous value. -/
theorem elig_inner_fold (f : String × String → ℚ → ℚ) (fromId : String) :
    ∀ (conns : List (String × ℚ)), (conns.map Prod.fst).Nodup →
    ∀ (e : String × String → ℚ) (k : String × String),
    (conns.foldl
      (fun e p => Function.update e (fromId, p.1) (f (fromId, p.1) (e (fromId, p.1)))) e) k =
      (if k.1 = fromId ∧ k.2 ∈ conns.map Prod.fst then f k (e k) else e k) := by
  intro conns
  induction conns with
  | nil => intro _ e k; simp
  | cons p tl ih =>
    intro hnd e k
    obtain ⟨b, w⟩ := p
    have hnd0 : (b :: tl.map Prod.fst).Nodup := by simpa using hnd
    have hnd' : (tl.map Prod.fst).Nodup := (List.nodup_cons.mp hnd0).2
    have hb : b ∉ tl.map Prod.fst := (List.nodup_cons.mp hnd0).1
    show (tl.foldl _ (Function.update e (fromId, b) (f (fromId, b) (e (fromId, b))))) k = _
    rw [ih hnd' _ k]
    by_cases hk : k.1 = fromId ∧ k.2 ∈ tl.map Prod.fst
    · rw [if_pos hk]
      have hkb : k ≠ (fromId, b) := by
        intro h
        rw [h] at hk
        exact hb hk.2
      rw [Function.update_noteq hkb]
      rw [if_pos ⟨hk.1, by simp [hk.2]⟩]
    · rw [if_neg hk]
      by_cases hkey : k = (fromId, b)
      · subst hkey
        rw [Function.update_same]
        rw [if_pos ⟨rfl, by simp⟩]
      · rw [Function.update_noteq hkey]
        rw [if_neg ?_]
        rintro ⟨h1, h2⟩
        rcases (by simpa using h2 : k.2 = b ∨ k.2 ∈ tl.map Prod.fst) with h3 | h3
        · exact hkey (Prod.ext h1 h3)
        · exact hk ⟨h1, h3⟩

/-- The full per-tick eligibility loop, described pointwise: every existing
edge key is combined once, everything else is untouched. -/
theorem elig_outer_fold (f : String × String → ℚ → ℚ) (g : GliaState) :
    ∀ (ids : List String), ids.Nodup →
    (∀ id ∈ ids, ((g.st id).connections.map Prod.fst).Nodup) →
    ∀ (e : String × String → ℚ) (k : String × String),
    (ids.foldl
      (fun e fromId =>
        ((g.st fromId).connections).foldl
          (fun e p => Function.update e (fromId, p.1) (f (fromId, p.1) (e (fromId, p.1)))) e)
      e) k =
      (if k.1 ∈ ids ∧ k.2 ∈ (g.st k.1).connections.map Prod.fst then f k (e k) else e k) := by
  intro ids
  induction ids with
  | nil => intro _ _ e k; simp
  | cons a tl ih =>
    intro hnd hc e k
    have hnd' : tl.Nodup := (List.nodup_cons.mp hnd).2
    have ha : a ∉ tl := (List.nodup_cons.mp hnd).1
    have hca : ((g.st a).connections.map Prod.fst).Nodup := hc a (List.mem_cons_self a tl)
    have hc' : ∀ id ∈ tl, ((g.st id).connections.map Prod.fst).Nodup :=
      fun id h => hc id (List.mem_cons_of_mem a h)
    show (tl.foldl _ ((g.st a).connections.foldl _ e)) k = _
    rw [ih hnd' hc' _ k]
    rw [elig_inner_fold f a (g.st a).connections hca e k]
    by_cases hk1 : k.1 ∈ tl
    · have hk1a : k.1 ≠ a := fun h => ha (h ▸ hk1)
      have hE1 : ¬ (k.1 = a ∧ k.2 ∈ (g.st a).connections.map Prod.fst) :=
        fun hcon => hk1a hcon.1
      rw [if_neg hE1]
      by_cases hk2 : k.2 ∈ (g.st k.1).connections.map Prod.fst
      · have hp1 : k.1 ∈ tl ∧ k.2 ∈ (g.st k.1).connections.map Prod.fst := ⟨hk1, hk2⟩
        have hp2 : k.1 ∈ a :: tl ∧ k.2 ∈ (g.st k.1).connections.map Prod.fst :=
          ⟨List.mem_cons_of_mem a hk1, hk2⟩
        rw [if_pos hp1, if_pos hp2]
      · have hq1 : ¬ (k.1 ∈ tl ∧ k.2 ∈ (g.st k.1).connections.map Prod.fst) :=
          fun hcon => hk2 hcon.2
        have hq2 : ¬ (k.1 ∈ a :: tl ∧ k.2 ∈ (g.st k.1).connections.map Prod.fst) :=
          fun hcon => hk2 hcon.2
        rw [if_neg hq1, if_neg hq2]
    · have hO : ¬ (k.1 ∈ tl ∧ k.2 ∈ (g.st k.1).connections.map Prod.fst) :=
        fun hcon => hk1 hcon.1
      rw [if_neg hO]
      by_cases hka : k.1 = a
      · by_cases hk2 : k.2 ∈ (g.st k.1).connections.map Prod.fst
        · have hk2a : k.2 ∈ (g.st a).connections.map Prod.fst := by
            rw [← hka]; exact hk2
          have hp1 : k.1 = a ∧ k.2 ∈ (g.st a).connections.map Prod.fst := ⟨hka, hk2a⟩
          have hp2 : k.1 ∈ a :: tl ∧ k.2 ∈ (g.st k.1).connections.map Prod.fst :=
            ⟨by rw [hka]; exact List.mem_cons_self a tl, hk2⟩
          rw [if_pos hp1, if_pos hp2]
        · have hk2a : k.2 ∉ (g.st a).connections.map Prod.fst := by
            rw [← hka]; exact hk2
          have hq1 : ¬ (k.1 = a ∧ k.2 ∈ (g.st a).connections.map Prod.fst) :=
            fun hcon => hk2a hcon.2
          have hq2 : ¬ (k.1 ∈ a :: tl ∧ k.2 ∈ (g.st k.1).connections.map Prod.fst) :=
            fun hcon => hk2 hcon.2
          rw [if_neg hq1, if_neg hq2]
      · have hq1 : ¬ (k.1 = a ∧ k.2 ∈ (g.st a).connections.map Prod.fst) :=
          fun hcon => hka hcon.1
        have hq2 : ¬ (k.1 ∈ a :: tl ∧ k.2 ∈ (g.st k.1).connections.map Prod.fst) := by
          rintro ⟨h1, h2⟩
          rcases List.mem_cons.mp h1 with h3 | h3
          · exact hka h3
          · exact hk1 h3
        rw [if_neg hq1, if_neg hq2]

theorem edgesFold_allIds :
    ∀ (edges : List EdgeRec) (g : GliaState),
    allIds (edges.foldl applyEdgeRec g) = allIds g := by
  intro edges
  induction edges with
  | nil => intro g; rfl
  | cons e tl ih =>
    intro g
    show allIds (tl.foldl applyEdgeRec (applyEdgeRec g e)) = allIds g
    rw [ih, applyEdgeRec_allIds]

theorem popBack_concat (l : List Snapshot) (s : Snapshot) :
    popBack (l ++ [s]) = some (s, l) := by
  unfold popBack
  rw [List.getLast?_concat, List.dropLast_concat]

theorem overflowPromote_lengths (c : ℤ) (src dst : List Snapshot) (hc : 0 ≤ c) :
    ((overflowPromote c src dst).1.length : ℤ) =
      (if c < (src.length : ℤ) then (src.length : ℤ) - 1 else (src.length : ℤ)) ∧
    ((overflowPromote c src dst).2.length : ℤ) =
      (if c < (src.length : ℤ) then (dst.length : ℤ) + 1 else (dst.length : ℤ)) := by
  unfold overflowPromote
  split_ifs with h
  · constructor
    · simp only [List.length_tail]
      omega
    · simp only [List.length_append, List.length_take]
      omega
  · exact ⟨rfl, rfl⟩

theorem overflowDrop_length (c : ℤ) (src : List Snapshot) (hc : 0 ≤ c) :
    ((overflowDrop c src).length : ℤ) =
      (if c < (src.length : ℤ) then (src.length : ℤ) - 1 else (src.length : ℤ)) := by
  unfold overflowDrop
  split_ifs with h
  · simp only [List.length_tail]
    omega
  · rfl

theorem capture_iter_lengths (cfg : LadderCfg)
    (hc0 : 0 ≤ cfg.c0) (hc1 : 0 ≤ cfg.c1) (hc2 : 0 ≤ cfg.c2) :
    ∀ (k : ℕ) (ts : TrainerState), ts.l0 = [] → ts.l1 = [] → ts.l2 = [] →
    ((((onEpochEndCapture cfg)^[k] ts).l0.length : ℤ) = min (k : ℤ) cfg.c0) ∧
    ((((onEpochEndCapture cfg)^[k] ts).l1.length : ℤ) =
      max 0 (min ((k : ℤ) - cfg.c0) cfg.c1)) ∧
    ((((onEpochEndCapture cfg)^[k] ts).l2.length : ℤ) =
      max 0 (min ((k : ℤ) - cfg.c0 - cfg.c1) cfg.c2)) := by
  intro k
  induction k with
  | zero =>
    intro ts h0 h1 h2
    refine ⟨?_, ?_, ?_⟩ <;> simp [h0, h1, h2] <;> omega
  | succ k ih =>
    intro ts h0 h1 h2
    rw [Function.iterate_succ_apply']
    obtain ⟨e0, e1, e2⟩ := ih ts h0 h1 h2
    set tk := (onEpochEndCapture cfg)^[k] ts with htk
    set s := captureSnapshot tk.glia with hs
    have g0 : (onEpochEndCapture cfg tk).l0 =
        (overflowPromote cfg.c0 (tk.l0 ++ [s]) tk.l1).1 := rfl
    have g1 : (onEpochEndCapture cfg tk).l1 =
        (overflowPromote cfg.c1 (overflowPromote cfg.c0 (tk.l0 ++ [s]) tk.l1).2 tk.l2).1 := rfl
    have g2 : (onEpochEndCapture cfg tk).l2 =
        overflowDrop cfg.c2
          (overflowPromote cfg.c1 (overflowPromote cfg.c0 (tk.l0 ++ [s]) tk.l1).2 tk.l2).2 := rfl
    obtain ⟨p0a, p0b⟩ := overflowPromote_lengths cfg.c0 (tk.l0 ++ [s]) tk.l1 hc0
    obtain ⟨p1a, p1b⟩ :=
      overflowPromote_lengths cfg.c1 (overflowPromote cfg.c0 (tk.l0 ++ [s]) tk.l1).2 tk.l2 hc1
    have pd := overflowDrop_length cfg.c2
      (overflowPromote cfg.c1 (overflowPromote cfg.c0 (tk.l0 ++ [s]) tk.l1).2 tk.l2).2 hc2
    simp only [List.length_append, List.length_singleton] at p0a p0b
    refine ⟨?_, ?_, ?_⟩
    · rw [g0, p0a]
      push_cast
      split_ifs <;> omega
    · rw [g1, p1a]
      push_cast at p0b
      split_ifs at p0b <;> split_ifs <;> omega
    · rw [g2, pd]
      push_cast at p0b
      split_ifs at p0b p1b <;> split_ifs <;> omega

/-- A zero clip bound leaves the weight untouched. -/
theorem clampW_zero (w : ℚ) : clampW 0 w = w :=
  if_neg (lt_irrefl 0)

theorem fabsQ_nonneg (w : ℚ) : 0 ≤ fabsQ w := by
  unfold fabsQ
  split_ifs with h
  · linarith
  · linarith

/-- An edge-accumulation inner loop whose per-key function is the identity
leaves the map untouched. -/
theorem accum_inner_id (f : String × String → ℚ → ℚ) (hf : ∀ k v, f k v = v)
    (fromId : String) :
    ∀ (conns : List (String × ℚ)) (e : String × String → ℚ),
    (conns.foldl
      (fun e p => Function.update e (fromId, p.1) (f (fromId, p.1) (e (fromId, p.1)))) e) = e := by
  intro conns
  induction conns with
  | nil => intro e; rfl
  | cons p tl ih =>
    intro e
    show (tl.foldl _
      (Function.update e (fromId, p.1) (f (fromId, p.1) (e (fromId, p.1))))) = e
    rw [hf, Function.update_eq_self]
    exact ih e

/-- The full edge accumulation with an identity per-key function is the
identity. -/
theorem accum_outer_id (f : String × String → ℚ → ℚ) (hf : ∀ k v, f k v = v)
    (g : GliaState) :
    ∀ (ids : List String) (e : String × String → ℚ),
    (ids.foldl
      (fun e fromId =>
        ((g.st fromId).connections).foldl
          (fun e p => Function.update e (fromId, p.1) (f (fromId, p.1) (e (fromId, p.1)))) e)
      e) = e := by
  intro ids
  induction ids with
  | nil => intro e; rfl
  | cons a tl ih =>
    intro e
    show (tl.foldl _ ((g.st a).connections.foldl _ e)) = e
    rw [accum_inner_id f hf a (g.st a).connections e]
    exact ih e

/-- With zero reward the delta map of an episode is identically zero. -/
theorem deltaFold_zero (cfg : TrainingConfig) (winner target : String)
    (g : GliaState) (elig : String × String → ℚ) :
    deltaFold cfg winner target 0 g elig = fun _ => 0 := by
  have hf : ∀ (k : String × String) (v : ℚ),
      (if gateTake cfg winner target k.2 then v + cfg.lr * 0 * elig k else v) = v := by
    intro k v
    by_cases h : gateTake cfg winner target k.2 = true
    · rw [if_pos h]; ring
    · rw [if_neg h]
  exact accum_outer_id
    (fun k v => if gateTake cfg winner target k.2 then v + cfg.lr * 0 * elig k else v)
    hf g (allIds g) (fun _ => 0)

/-- In the binary reward mode with both rewards zero, every episode's raw
reward is zero. -/
theorem computeReward_binary_zero (expQ : ℚ → ℚ) (cfg : TrainingConfig)
    (m : EpisodeMetrics) (target : String) (hmode : cfg.reward_mode = "binary")
    (hpos : cfg.reward_pos = 0) (hneg : cfg.reward_neg = 0) :
    computeReward expQ cfg m target = 0 := by
  have h1 : ¬ cfg.reward_mode = "margin_linear" := by rw [hmode]; decide
  have h2 : ¬ cfg.reward_mode = "softplus_margin" := by rw [hmode]; decide
  simp only [computeReward]
  rw [if_neg h1, if_neg h2]
  by_cases h3 : m.winner = target ∧ cfg.margin_delta ≤ m.margin
  · rw [if_pos h3]; exact hpos
  · rw [if_neg h3]; exact hneg

/-- `injectSensory` changes no sensory list and no connection list. -/
theorem injectSensory_structure (g : GliaState) (id : String) (amt : ℚ) :
    (injectSensory g id amt).sens = g.sens ∧ (injectSensory g id amt).rest = g.rest ∧
    ∀ b, ((injectSensory g id amt).st b).connections = (g.st b).connections := by
  unfold injectSensory
  by_cases h : id ∈ g.sens
  · rw [if_pos h]
    refine ⟨rfl, rfl, fun b => ?_⟩
    dsimp only
    by_cases hb : b = id
    · subst hb
      rw [Function.update_same]
      rfl
    · rw [Function.update_noteq hb]
  · rw [if_neg h]
    exact ⟨rfl, rfl, fun b => rfl⟩

/-- `injectFromSequence` changes no sensory list and no connection list. -/
theorem injectFromSeq_structure (g : GliaState) (s : InputSeq) :
    (injectFromSeq g s).sens = g.sens ∧ (injectFromSeq g s).rest = g.rest ∧
    ∀ b, ((injectFromSeq g s).st b).connections = (g.st b).connections := by
  unfold injectFromSeq
  generalize seqCurrentInputs s = l
  induction l generalizing g with
  | nil => exact ⟨rfl, rfl, fun b => rfl⟩
  | cons kv tl ih =>
    show (tl.foldl _ (injectSensory g kv.1 kv.2)).sens = _ ∧ _ ∧ _
    obtain ⟨h1, h2, h3⟩ := ih (injectSensory g kv.1 kv.2)
    obtain ⟨j1, j2, j3⟩ := injectSensory_structure g kv.1 kv.2
    exact ⟨h1.trans j1, h2.trans j2, fun b => (h3 b).trans (j3 b)⟩

/-- One episode tick changes no sensory list and no connection list. -/
theorem episodeTick_structure (cfg : TrainingConfig) (outIds : List String)
    (es : EpState) :
    (episodeTick cfg outIds es).glia.sens = es.glia.sens ∧
    (episodeTick cfg outIds es).glia.rest = es.glia.rest ∧
    ∀ b, ((episodeTick cfg outIds es).glia.st b).connections =
      (es.glia.st b).connections := by
  obtain ⟨h1, h2, h3⟩ := injectFromSeq_structure es.glia es.seq
  refine ⟨h1, h2, fun b => ?_⟩
  show ((gliaStep (injectFromSeq es.glia es.seq)).st b).connections = _
  unfold gliaStep
  dsimp only
  rw [stepOrder_connections]
  exact h3 b

/-- Iterated episode ticks change no sensory list and no connection list. -/
theorem episodeIter_structure (cfg : TrainingConfig) (outIds : List String) :
    ∀ (n : ℕ) (es : EpState),
    ((episodeTick cfg outIds)^[n] es).glia.sens = es.glia.sens ∧
    ((episodeTick cfg outIds)^[n] es).glia.rest = es.glia.rest ∧
    ∀ b, (((episodeTick cfg outIds)^[n] es).glia.st b).connections =
      (es.glia.st b).connections := by
  intro n
  induction n with
  | zero => intro es; exact ⟨rfl, rfl, fun b => rfl⟩
  | succ n ih =>
    intro es
    rw [Function.iterate_succ_apply]
    obtain ⟨h1, h2, h3⟩ := ih (episodeTick cfg outIds es)
    obtain ⟨j1, j2, j3⟩ := episodeTick_structure cfg outIds es
    exact ⟨h1.trans j1, h2.trans j2, fun b => (h3 b).trans (j3 b)⟩

/-- With binary zero rewards and a zero incoming baseline, an episode
returns a zero baseline and a zero delta map, and leaves the sensory list
and every connection list unchanged. -/
theorem episodeOut_zero (expQ : ℚ → ℚ) (cfg : TrainingConfig) (g : GliaState)
    (nr : String → ℚ) (usage0 : String × String → ℚ) (seq : InputSeq)
    (target : String) (hmode : cfg.reward_mode = "binary")
    (hpos : cfg.reward_pos = 0) (hneg : cfg.reward_neg = 0) :
    (computeEpisodeDelta expQ cfg g nr 0 usage0 seq target).baseline = 0 ∧
    (∀ k, (computeEpisodeDelta expQ cfg g nr 0 usage0 seq target).delta k = 0) ∧
    (computeEpisodeDelta expQ cfg g nr 0 usage0 seq target).glia.sens = g.sens ∧
    (computeEpisodeDelta expQ cfg g nr 0 usage0 seq target).glia.rest = g.rest ∧
    (∀ b, ((computeEpisodeDelta expQ cfg g nr 0 usage0 seq target).glia.st b).connections =
      (g.st b).connections) := by
  simp only [computeEpisodeDelta]
  dsimp only
  rw [computeReward_binary_zero expQ cfg _ target hmode hpos hneg]
  refine ⟨?_, ?_, ?_, ?_, ?_⟩
  · by_cases hA : cfg.use_advantage_baseline = true
    · rw [if_pos hA]; ring
    · rw [if_neg hA]
  · intro k
    simp only [sub_zero, ite_self]
    exact congrFun (deltaFold_zero cfg _ target _ _) k
  · exact (episodeIter_structure cfg (collectOutputIDs g)
      (cfg.warmup_ticks + cfg.decision_window) _).1
  · exact (episodeIter_structure cfg (collectOutputIDs g)
      (cfg.warmup_ticks + cfg.decision_window) _).2.1
  · exact fun b => (episodeIter_structure cfg (collectOutputIDs g)
      (cfg.warmup_ticks + cfg.decision_window) _).2.2 b

/-- The episode loop of `trainBatch` under binary zero rewards: the
baseline stays zero, the summed delta map stays zero, and the network
structure is untouched. -/
theorem batchFold_zero (expQ : ℚ → ℚ) (cfg : TrainingConfig)
    (hmode : cfg.reward_mode = "binary") (hpos : cfg.reward_pos = 0)
    (hneg : cfg.reward_neg = 0) (g0 : GliaState) :
    ∀ (batch : List (InputSeq × String)) (acc : BatchAcc),
    acc.baseline = 0 → (∀ k, acc.sum_delta k = 0) →
    acc.glia.sens = g0.sens → acc.glia.rest = g0.rest →
    (∀ b, (acc.glia.st b).connections = (g0.st b).connections) →
    (batch.foldl (batchStep expQ cfg) acc).baseline = 0 ∧
    (∀ k, (batch.foldl (batchStep expQ cfg) acc).sum_delta k = 0) ∧
    (batch.foldl (batchStep expQ cfg) acc).glia.sens = g0.sens ∧
    (batch.foldl (batchStep expQ cfg) acc).glia.rest = g0.rest ∧
    (∀ b, ((batch.foldl (batchStep expQ cfg) acc).glia.st b).connections =
      (g0.st b).connections) := by
  intro batch
  induction batch with
  | nil => intro acc h1 h2 h3 h4 h5; exact ⟨h1, h2, h3, h4, h5⟩
  | cons item tl ih =>
    intro acc h1 h2 h3 h4 h5
    rw [List.foldl_cons]
    have e1 : (batchStep expQ cfg acc item).baseline = 0 := by
      show (computeEpisodeDelta expQ cfg acc.glia acc.rate acc.baseline acc.sum_usage
        item.1 item.2).baseline = 0
      rw [h1]
      exact (episodeOut_zero expQ cfg acc.glia acc.rate acc.sum_usage item.1 item.2
        hmode hpos hneg).1
    have e2 : ∀ k, (batchStep expQ cfg acc item).sum_delta k = 0 := by
      intro k
      show acc.sum_delta k + (computeEpisodeDelta expQ cfg acc.glia acc.rate
        acc.baseline acc.sum_usage item.1 item.2).delta k = 0
      rw [h1, h2 k,
        (episodeOut_zero expQ cfg acc.glia acc.rate acc.sum_usage item.1 item.2
          hmode hpos hneg).2.1 k]
      exact zero_add 0
    have e3 : (batchStep expQ cfg acc item).glia.sens = g0.sens := by
      show (computeEpisodeDelta expQ cfg acc.glia acc.rate acc.baseline acc.sum_usage
        item.1 item.2).glia.sens = g0.sens
      rw [h1]
      exact ((episodeOut_zero expQ cfg acc.glia acc.rate acc.sum_usage item.1 item.2
        hmode hpos hneg).2.2.1).trans h3
    have e4 : (batchStep expQ cfg acc item).glia.rest = g0.rest := by
      show (computeEpisodeDelta expQ cfg acc.glia acc.rate acc.baseline acc.sum_usage
        item.1 item.2).glia.rest = g0.rest
      rw [h1]
      exact ((episodeOut_zero expQ cfg acc.glia acc.rate acc.sum_usage item.1 item.2
        hmode hpos hneg).2.2.2.1).trans h4
    have e5 : ∀ b, ((batchStep expQ cfg acc item).glia.st b).connections =
        (g0.st b).connections := by
      intro b
      show ((computeEpisodeDelta expQ cfg acc.glia acc.rate acc.baseline acc.sum_usage
        item.1 item.2).glia.st b).connections = (g0.st b).connections
      rw [h1]
      exact ((episodeOut_zero expQ cfg acc.glia acc.rate acc.sum_usage item.1 item.2
        hmode hpos hneg).2.2.2.2 b).trans (h5 b)
    exact ih (batchStep expQ cfg acc item) e1 e2 e3 e4 e5

/-- `aset` is the identity when the key is absent. -/
theorem aset_not_mem {κ α : Type} [DecidableEq κ] :
    ∀ (l : List (κ × α)) (k : κ) (v : α), (∀ p ∈ l, ¬ p.1 = k) → aset l k v = l := by
  intro l k v
  induction l with
  | nil => intro _; rfl
  | cons p tl ih =>
    intro h
    show (if p.1 = k then (k, v) else p) :: aset tl k v = p :: tl
    rw [if_neg (h p (List.mem_cons_self p tl)),
      ih (fun q hq => h q (List.mem_cons_of_mem p hq))]

theorem aset_append {κ α : Type} [DecidableEq κ] (xs ys : List (κ × α)) (k : κ) (v : α) :
    aset (xs ++ ys) k v = aset xs k v ++ aset ys k v :=
  List.map_append _ _ _

/-- Folding `aset` over a key-unique list, starting from that list itself,
rewrites every entry's value in place. -/
theorem aset_fold_map (F : String × ℚ → ℚ) :
    ∀ (l pre : List (String × ℚ)),
    ((pre ++ l).map Prod.fst).Nodup →
    (l.foldl (fun cs p => aset cs p.1 (F p)) (pre.map (fun q => (q.1, F q)) ++ l)) =
      (pre ++ l).map (fun q => (q.1, F q)) := by
  intro l
  induction l with
  | nil =>
    intro pre _
    simp
  | cons p tl ih =>
    intro pre hnd
    rw [List.foldl_cons]
    have hmid : (p.1 :: (pre.map Prod.fst ++ tl.map Prod.fst)).Nodup :=
      List.nodup_middle.mp (by simpa [List.map_append] using hnd)
    have hpnot : p.1 ∉ pre.map Prod.fst ++ tl.map Prod.fst := (List.nodup_cons.mp hmid).1
    have hpre : ∀ q ∈ pre.map (fun q => (q.1, F q)), ¬ q.1 = p.1 := by
      intro q hq hcon
      apply hpnot
      apply List.mem_append_left
      obtain ⟨q0, hq0, rfl⟩ := List.mem_map.mp hq
      exact hcon ▸ List.mem_map.mpr ⟨q0, hq0, rfl⟩
    have htl : ∀ q ∈ tl, ¬ q.1 = p.1 := by
      intro q hq hcon
      apply hpnot
      apply List.mem_append_right
      exact hcon ▸ List.mem_map.mpr ⟨q, hq, rfl⟩
    have h2 : aset (p :: tl) p.1 (F p) = (p.1, F p) :: tl := by
      show (if p.1 = p.1 then (p.1, F p) else p) :: aset tl p.1 (F p) = _
      rw [if_pos rfl, aset_not_mem tl p.1 (F p) htl]
    rw [aset_append, aset_not_mem _ _ _ hpre, h2]
    have hini : pre.map (fun q => (q.1, F q)) ++ (p.1, F p) :: tl =
        (pre ++ [p]).map (fun q => (q.1, F q)) ++ tl := by
      rw [List.map_append]
      simp
    have hnd' : (((pre ++ [p]) ++ tl).map Prod.fst).Nodup := by
      rw [List.append_assoc, List.singleton_append]
      exact hnd
    rw [hini, ih (pre ++ [p]) hnd', List.append_assoc, List.singleton_append]

/-- The inner loop of `applyDeltas` for one neuron, projected to its
connection list; every other neuron and the id lists are untouched. -/
theorem applyDeltas_inner (cfg : TrainingConfig) (d : String × String → ℚ) (s : ℚ)
    (a : String) :
    ∀ (l : List (String × ℚ)) (g : GliaState),
    (((l.foldl (fun g2 p => setW g2 a p.1 (deltaEdgeW cfg d s (a, p.1) p.2)) g).st a).connections =
      l.foldl (fun cs p => aset cs p.1 (deltaEdgeW cfg d s (a, p.1) p.2)) ((g.st a).connections)) ∧
    (∀ b, ¬ b = a →
      (l.foldl (fun g2 p => setW g2 a p.1 (deltaEdgeW cfg d s (a, p.1) p.2)) g).st b = g.st b) ∧
    (l.foldl (fun g2 p => setW g2 a p.1 (deltaEdgeW cfg d s (a, p.1) p.2)) g).sens = g.sens ∧
    (l.foldl (fun g2 p => setW g2 a p.1 (deltaEdgeW cfg d s (a, p.1) p.2)) g).rest = g.rest := by
  intro l
  induction l with
  | nil => intro g; exact ⟨rfl, fun b _ => rfl, rfl, rfl⟩
  | cons p tl ih =>
    intro g
    rw [List.foldl_cons, List.foldl_cons]
    obtain ⟨i1, i2, i3, i4⟩ := ih (setW g a p.1 (deltaEdgeW cfg d s (a, p.1) p.2))
    refine ⟨?_, ?_, ?_, ?_⟩
    · rw [i1]
      have hset : ((setW g a p.1 (deltaEdgeW cfg d s (a, p.1) p.2)).st a).connections =
          aset (g.st a).connections p.1 (deltaEdgeW cfg d s (a, p.1) p.2) := by
        unfold setW
        dsimp only
        rw [Function.update_same]
      rw [hset]
    · intro b hb
      rw [i2 b hb]
      unfold setW
      dsimp only
      rw [Function.update_noteq hb]
    · exact i3
    · exact i4

/-- `applyDeltas`, described pointwise: each neuron's connection list is
rewritten entry by entry through `deltaEdgeW`, everything else is
unchanged. -/
theorem applyDeltas_outer (cfg : TrainingConfig) (d : String × String → ℚ) (s : ℚ) :
    ∀ (ids : List String) (g : GliaState), ids.Nodup →
    (∀ a ∈ ids, (((g.st a).connections).map Prod.fst).Nodup) →
    (∀ b, ((ids.foldl
        (fun g1 a =>
          ((g1.st a).connections).foldl
            (fun g2 p => setW g2 a p.1 (deltaEdgeW cfg d s (a, p.1) p.2)) g1)
        g).st b).connections =
      if b ∈ ids then
        ((g.st b).connections).map (fun q => (q.1, deltaEdgeW cfg d s (b, q.1) q.2))
      else (g.st b).connections) ∧
    (ids.foldl
      (fun g1 a =>
        ((g1.st a).connections).foldl
          (fun g2 p => setW g2 a p.1 (deltaEdgeW cfg d s (a, p.1) p.2)) g1)
      g).sens = g.sens ∧
    (ids.foldl
      (fun g1 a =>
        ((g1.st a).connections).foldl
          (fun g2 p => setW g2 a p.1 (deltaEdgeW cfg d s (a, p.1) p.2)) g1)
      g).rest = g.rest := by
  intro ids
  induction ids with
  | nil =>
    intro g _ _
    exact ⟨fun b => (if_neg (List.not_mem_nil b)).symm, rfl, rfl⟩
  | cons a tl ih =>
    intro g hnd hc
    rw [List.foldl_cons]
    have ha : a ∉ tl := (List.nodup_cons.mp hnd).1
    have hnd' : tl.Nodup := (List.nodup_cons.mp hnd).2
    obtain ⟨i1, i2, i3, i4⟩ := applyDeltas_inner cfg d s a ((g.st a).connections) g
    have hG1 : ((((g.st a).connections).foldl
        (fun g2 p => setW g2 a p.1 (deltaEdgeW cfg d s (a, p.1) p.2)) g).st a).connections =
        ((g.st a).connections).map (fun q => (q.1, deltaEdgeW cfg d s (a, q.1) q.2)) := by
      rw [i1]
      exact aset_fold_map (fun q => deltaEdgeW cfg d s (a, q.1) q.2) ((g.st a).connections)
        [] (hc a (List.mem_cons_self a tl))
    have hcG : ∀ x ∈ tl,
        (((((g.st a).connections).foldl
          (fun g2 p => setW g2 a p.1 (deltaEdgeW cfg d s (a, p.1) p.2)) g).st x).connections.map
          Prod.fst).Nodup := by
      intro x hx
      have hxa : ¬ x = a := fun h => ha (h ▸ hx)
      rw [i2 x hxa]
      exact hc x (List.mem_cons_of_mem a hx)
    obtain ⟨o1, o2, o3⟩ := ih (((g.st a).connections).foldl
      (fun g2 p => setW g2 a p.1 (deltaEdgeW cfg d s (a, p.1) p.2)) g) hnd' hcG
    refine ⟨fun b => ?_, o2.trans i3, o3.trans i4⟩
    rw [o1 b]
    by_cases hb : b ∈ tl
    · have hba : ¬ b = a := fun h => ha (h ▸ hb)
      rw [if_pos hb, if_pos (List.mem_cons_of_mem a hb), i2 b hba]
    · by_cases hba : b = a
      · subst hba
        rw [if_neg hb, if_pos (List.mem_cons_self b tl), hG1]
      · have hnb : ¬ b ∈ a :: tl := by
          intro h
          rcases List.mem_cons.mp h with h1 | h2
          · exact hba h1
          · exact hb h2
        rw [if_neg hb, if_neg hnb, i2 b hba]

/-- `applyDeltas` on a well-formed network: the pointwise description. -/
theorem applyDeltas_props (cfg : TrainingConfig) (d : String × String → ℚ) (s : ℚ)
    (g : GliaState) (hnd : (allIds g).Nodup)
    (hc : ∀ a ∈ allIds g, (((g.st a).connections).map Prod.fst).Nodup) :
    (∀ b, ((applyDeltas cfg d s g).st b).connections =
      if b ∈ allIds g then
        ((g.st b).connections).map (fun q => (q.1, deltaEdgeW cfg d s (b, q.1) q.2))
      else (g.st b).connections) ∧
    (applyDeltas cfg d s g).sens = g.sens ∧ (applyDeltas cfg d s g).rest = g.rest := by
  unfold applyDeltas
  exact applyDeltas_outer cfg d s (allIds g) g hnd hc

/-- With a zero delta at the key and clipping off, the per-edge update of
`applyDeltas` is exactly the weight-decay shrink. -/
theorem deltaEdgeW_zero (cfg : TrainingConfig) (d : String × String → ℚ) (s : ℚ)
    (k : String × String) (w : ℚ) (hd : d k = 0) (hclip : cfg.weight_clip = 0) :
    deltaEdgeW cfg d s k w = w * (1 - cfg.weight_decay) := by
  unfold deltaEdgeW
  rw [hd, hclip, clampW_zero]
  ring

/-- With `prune_epsilon = 0` no edge satisfies `|w| < eps`, so the prune
scan collects nothing. -/
theorem pruneScan_gen (cfg : TrainingConfig) (heps : cfg.prune_epsilon = 0) :
    ∀ (edges : List (String × String × ℚ))
      (acc : (String × String → ℤ) × List (String × String)),
    acc.2 = [] →
    (edges.foldl
      (fun acc e =>
        if fabsQ e.2.2 < cfg.prune_epsilon then
          (Function.update acc.1 (e.1, e.2.1) (acc.1 (e.1, e.2.1) + 1),
           if cfg.prune_patience ≤ acc.1 (e.1, e.2.1) + 1 then acc.2 ++ [(e.1, e.2.1)]
           else acc.2)
        else (Function.update acc.1 (e.1, e.2.1) 0, acc.2))
      acc).2 = [] := by
  intro edges
  induction edges with
  | nil => intro acc h; exact h
  | cons e tl ih =>
    intro acc h
    rw [List.foldl_cons]
    apply ih
    have hlt : ¬ fabsQ e.2.2 < cfg.prune_epsilon := by
      rw [heps]
      exact not_lt.mpr (fabsQ_nonneg e.2.2)
    show (if fabsQ e.2.2 < cfg.prune_epsilon then _ else
      (Function.update acc.1 (e.1, e.2.1) 0, acc.2)).2 = ([] : List (String × String))
    rw [if_neg hlt]
    exact h

theorem pruneScan_rem (cfg : TrainingConfig) (heps : cfg.prune_epsilon = 0)
    (ctr : String × String → ℤ) (edges : List (String × String × ℚ)) :
    (pruneScan cfg ctr edges).2 = [] := by
  unfold pruneScan
  exact pruneScan_gen cfg heps edges (ctr, []) rfl

/-- The intrinsic-plasticity fold touches only thresholds and leaks. -/
theorem intrinsic_gen (cfg : TrainingConfig) (nr : String → ℚ) :
    ∀ (ids : List String) (g : GliaState),
    (∀ b, ((ids.foldl
        (fun g1 id =>
          let r := nr id
          let th1 :=
            if ¬ cfg.eta_theta = 0 then (g1.st id).threshold + cfg.eta_theta * (r - cfg.r_target)
            else (g1.st id).threshold
          let lk0 := (g1.st id).balancer + cfg.eta_leak * (cfg.r_target - r)
          let lk1 := if lk0 < 0 then 0 else if 1 < lk0 then 1 else lk0
          let lk2 := if ¬ cfg.eta_leak = 0 then lk1 else (g1.st id).balancer
          { g1 with st := Function.update g1.st id { g1.st id with threshold := th1, balancer := lk2 } })
        g).st b).connections = (g.st b).connections) ∧
    (ids.foldl
      (fun g1 id =>
        let r := nr id
        let th1 :=
          if ¬ cfg.eta_theta = 0 then (g1.st id).threshold + cfg.eta_theta * (r - cfg.r_target)
          else (g1.st id).threshold
        let lk0 := (g1.st id).balancer + cfg.eta_leak * (cfg.r_target - r)
        let lk1 := if lk0 < 0 then 0 else if 1 < lk0 then 1 else lk0
        let lk2 := if ¬ cfg.eta_leak = 0 then lk1 else (g1.st id).balancer
        { g1 with st := Function.update g1.st id { g1.st id with threshold := th1, balancer := lk2 } })
      g).sens = g.sens ∧
    (ids.foldl
      (fun g1 id =>
        let r := nr id
        let th1 :=
          if ¬ cfg.eta_theta = 0 then (g1.st id).threshold + cfg.eta_theta * (r - cfg.r_target)
          else (g1.st id).threshold
        let lk0 := (g1.st id).balancer + cfg.eta_leak * (cfg.r_target - r)
        let lk1 := if lk0 < 0 then 0 else if 1 < lk0 then 1 else lk0
        let lk2 := if ¬ cfg.eta_leak = 0 then lk1 else (g1.st id).balancer
        { g1 with st := Function.update g1.st id { g1.st id with threshold := th1, balancer := lk2 } })
      g).rest = g.rest := by
  intro ids
  induction ids with
  | nil => intro g; exact ⟨fun b => rfl, rfl, rfl⟩
  | cons id tl ih =>
    intro g
    rw [List.foldl_cons]
    refine ⟨fun b => ?_, ?_, ?_⟩
    · rw [(ih _).1 b]
      dsimp only
      by_cases hb : b = id
      · subst hb
        rw [Function.update_same]
      · rw [Function.update_noteq hb]
    · rw [(ih _).2.1]
    · rw [(ih _).2.2]

/-- `intrinsicFold` changes no id list and no connection list. -/
theorem intrinsicFold_props (cfg : TrainingConfig) (nr : String → ℚ) (g : GliaState) :
    (∀ b, ((intrinsicFold cfg nr g).st b).connections = (g.st b).connections) ∧
    (intrinsicFold cfg nr g).sens = g.sens ∧ (intrinsicFold cfg nr g).rest = g.rest := by
  unfold intrinsicFold
  exact intrinsic_gen cfg nr (allIds g) g

/-- One `trainBatch` under binary zero rewards with clip, prune, growth,
boost and inactive-pruning disabled and a zero incoming baseline: the id
lists survive, every connection list is shrunk entrywise by `1 − wd`, and
the baseline stays zero. -/
theorem trainBatch_decay (expQ : ℚ → ℚ) (pick : ℕ → String × String × Bool)
    (cfg : TrainingConfig) (batch : List (InputSeq × String)) (ts : TrainerState)
    (hmode : cfg.reward_mode = "binary") (hpos : cfg.reward_pos = 0)
    (hneg : cfg.reward_neg = 0) (hclip : cfg.weight_clip = 0)
    (heps : cfg.prune_epsilon = 0) (hgrow : cfg.grow_edges = 0)
    (hboost : cfg.usage_boost_gain = 0) (hinact : cfg.inactive_rate_threshold = 0)
    (hbase : ts.reward_baseline = 0) (hnd : (allIds ts.glia).Nodup)
    (hc : ∀ a ∈ allIds ts.glia, (((ts.glia.st a).connections).map Prod.fst).Nodup) :
    (trainBatch expQ pick cfg batch ts).glia.sens = ts.glia.sens ∧
    (trainBatch expQ pick cfg batch ts).glia.rest = ts.glia.rest ∧
    (∀ b, ((trainBatch expQ pick cfg batch ts).glia.st b).connections =
      if b ∈ allIds ts.glia then
        ((ts.glia.st b).connections).map (fun q => (q.1, q.2 * (1 - cfg.weight_decay)))
      else (ts.glia.st b).connections) ∧
    (trainBatch expQ pick cfg batch ts).reward_baseline = 0 := by
  obtain ⟨hb0, hd0, hs0, hr0, hcn0⟩ := batchFold_zero expQ cfg hmode hpos hneg ts.glia batch
    { glia := ts.glia, rate := ts.neuron_rate, baseline := ts.reward_baseline,
      sum_delta := fun _ => 0, sum_usage := fun _ => 0, sum_reward := 0 }
    hbase (fun _ => rfl) rfl rfl (fun _ => rfl)
  have hAll : allIds (batch.foldl (batchStep expQ cfg)
      { glia := ts.glia, rate := ts.neuron_rate, baseline := ts.reward_baseline,
        sum_delta := fun _ => 0, sum_usage := fun _ => 0, sum_reward := 0 }).glia =
      allIds ts.glia := by
    show (batch.foldl (batchStep expQ cfg) _).glia.sens ++
      (batch.foldl (batchStep expQ cfg) _).glia.rest = ts.glia.sens ++ ts.glia.rest
    rw [hs0, hr0]
  have hndA : (allIds (batch.foldl (batchStep expQ cfg)
      { glia := ts.glia, rate := ts.neuron_rate, baseline := ts.reward_baseline,
        sum_delta := fun _ => 0, sum_usage := fun _ => 0, sum_reward := 0 }).glia).Nodup := by
    rw [hAll]
    exact hnd
  have hcA : ∀ a ∈ allIds (batch.foldl (batchStep expQ cfg)
      { glia := ts.glia, rate := ts.neuron_rate, baseline := ts.reward_baseline,
        sum_delta := fun _ => 0, sum_usage := fun _ => 0, sum_reward := 0 }).glia,
      ((((batch.foldl (batchStep expQ cfg)
        { glia := ts.glia, rate := ts.neuron_rate, baseline := ts.reward_baseline,
          sum_delta := fun _ => 0, sum_usage := fun _ => 0, sum_reward := 0 }).glia.st a).connections).map
        Prod.fst).Nodup := by
    intro a ha
    rw [hcn0 a]
    exact hc a (hAll ▸ ha)
  obtain ⟨p1, p2, p3⟩ := applyDeltas_props cfg
    (batch.foldl (batchStep expQ cfg)
      { glia := ts.glia, rate := ts.neuron_rate, baseline := ts.reward_baseline,
        sum_delta := fun _ => 0, sum_usage := fun _ => 0, sum_reward := 0 }).sum_delta
    (if batch.length = 0 then 1 else 1 / (batch.length : ℚ))
    (batch.foldl (batchStep expQ cfg)
      { glia := ts.glia, rate := ts.neuron_rate, baseline := ts.reward_baseline,
        sum_delta := fun _ => 0, sum_usage := fun _ => 0, sum_reward := 0 }).glia
    hndA hcA
  obtain ⟨q1, q2, q3⟩ := intrinsicFold_props cfg
    (batch.foldl (batchStep expQ cfg)
      { glia := ts.glia, rate := ts.neuron_rate, baseline := ts.reward_baseline,
        sum_delta := fun _ => 0, sum_usage := fun _ => 0, sum_reward := 0 }).rate
    (applyDeltas cfg
      (batch.foldl (batchStep expQ cfg)
        { glia := ts.glia, rate := ts.neuron_rate, baseline := ts.reward_baseline,
          sum_delta := fun _ => 0, sum_usage := fun _ => 0, sum_reward := 0 }).sum_delta
      (if batch.length = 0 then 1 else 1 / (batch.length : ℚ))
      (batch.foldl (batchStep expQ cfg)
        { glia := ts.glia, rate := ts.neuron_rate, baseline := ts.reward_baseline,
          sum_delta := fun _ => 0, sum_usage := fun _ => 0, sum_reward := 0 }).glia)
  have hB : ¬ (¬ cfg.usage_boost_gain = 0 ∧ ¬ batch.length = 0) :=
    fun hcon => hcon.1 hboost
  have hG : ¬ (0 : ℤ) < cfg.grow_edges := by
    rw [hgrow]
    exact lt_irrefl 0
  have hI : ¬ (0 < cfg.inactive_rate_threshold ∧ 0 < cfg.inactive_rate_patience ∧
      0 < cfg.prune_inactive_max) := by
    intro hcon
    rw [hinact] at hcon
    exact lt_irrefl 0 hcon.1
  simp only [trainBatch]
  rw [if_neg hB, if_neg hG, if_neg hI, pruneScan_rem cfg heps]
  dsimp only
  simp only [List.foldl_nil, List.nil_append]
  refine ⟨q2.trans (p2.trans hs0), q3.trans (p3.trans hr0), fun b => ?_, hb0⟩
  rw [q1 b, p1 b, hAll, hcn0 b]
  by_cases hb : b ∈ allIds ts.glia
  · rw [if_pos hb, if_pos hb]
    apply List.map_congr_left
    intro q hq
    rw [deltaEdgeW_zero cfg _ _ _ _ (hd0 (b, q.1)) hclip]
  · rw [if_neg hb, if_neg hb]

/-- Rewriting values entry by entry preserves the key list. -/
theorem keys_map_pair (l : List (String × ℚ)) (f : String × ℚ → ℚ) :
    (l.map (fun q => (q.1, f q))).map Prod.fst = l.map Prod.fst := by
  rw [List.map_map]
  rfl

/-- Looking up in a list whose values were all scaled gives the scaled
value. -/
theorem alookup_map_decay (c : ℚ) :
    ∀ (l : List (String × ℚ)) (k : String),
    alookup (l.map (fun q => (q.1, q.2 * c))) k = (alookup l k).map (fun v => v * c) := by
  intro l
  induction l with
  | nil => intro k; rfl
  | cons p tl ih =>
    intro k
    show (if p.1 = k then some (p.2 * c) else alookup (tl.map (fun q => (q.1, q.2 * c))) k) =
      (if p.1 = k then some p.2 else alookup tl k).map (fun v => v * c)
    by_cases hk : p.1 = k
    · rw [if_pos hk, if_pos hk]
      rfl
    · rw [if_neg hk, if_neg hk, ih k]

end CoreLemmas

/-- Claim C1: one call to `Neuron::tick` in tick mode performs exactly the
claimed state transition — just-fired cleared, `incoming` the old `delta`,
`delta := on_deck`, `on_deck := 0`; if the refractory countdown is positive
it is decremented and nothing else happens; otherwise
`V := max 0 (L*V + incoming)` and, when `V > θ`, the neuron fires (flag set,
`V := R`, each outgoing weight deposited into its target's `on_deck`). -/
theorem claim_C1_tick_transition (net : NetState) (u : String) :
    tickOne net u = tickClaimed net u :=
  tickOne_apply net u

/-- Claim C2: staging in `on_deck` enforces the synaptic delays.  First, a
sensory injection before step `t` cannot influence the membrane potential or
firing of a neuron all of whose paths from the injected source have length
at least `k` until at least `k` further steps have run (so the effect
appears no earlier than tick `t + k`), for every network and every
duplicate-free update order in each step.  Second, within one step a
neuron's new membrane potential and firing flag are a function of its own
pre-step state alone, so a spike emitted on tick `t` influences its
postsynaptic neuron no earlier than tick `t + 1`. -/
theorem claim_C2_one_tick_delay :
    (∀ (net0 : NetState) (s : String) (amt : ℚ) (orders : List (List String)) (n : String),
      (∀ o ∈ orders, o.Nodup) →
      FarFrom (HasEdge net0) s n orders.length →
      ((runSteps orders (injectAmt net0 s amt)) n).value = ((runSteps orders net0) n).value ∧
      ((runSteps orders (injectAmt net0 s amt)) n).just_fired =
        ((runSteps orders net0) n).just_fired) ∧
    (∀ (net : NetState) (order : List String) (u : String),
      order.Nodup → u ∈ order →
      ((stepOrder order net) u).value = (tickCore (net u)).value ∧
      ((stepOrder order net) u).just_fired = (tickCore (net u)).just_fired) := by
  constructor
  · intro net0 s amt orders n hnd hfar
    have hE : ∀ a b (w : ℚ), (b, w) ∈ (net0 a).connections → HasEdge net0 a b :=
      fun a b w h => ⟨w, h⟩
    have hcA : ∀ x, (net0 x).connections = (net0 x).connections := fun _ => rfl
    have hcB : ∀ x, ((injectAmt net0 s amt) x).connections = (net0 x).connections := by
      intro x
      by_cases hx : x = s
      · subst hx; unfold injectAmt; rw [Function.update_same]; rfl
      · unfold injectAmt; rw [Function.update_noteq hx]
    have hp : ∀ x, SameParams (net0 x) ((injectAmt net0 s amt) x) := by
      intro x
      by_cases hx : x = s
      · subst hx; unfold injectAmt; rw [Function.update_same]
        exact ⟨rfl, rfl, rfl, rfl⟩
      · unfold injectAmt; rw [Function.update_noteq hx]
        exact ⟨rfl, rfl, rfl, rfl⟩
    have hbase := agreeVia_inject (E := HasEdge net0) (s := s) net0 amt
    have hrun := @agreeVia_run (HasEdge net0) s (fun x => (net0 x).connections)
      hE orders 0 net0 (injectAmt net0 s amt) hcA hcB hp hnd hbase
    rw [Nat.zero_add] at hrun
    have hcore := (hrun n).2 hfar
    exact ⟨hcore.1.symm, hcore.2.1.symm⟩
  · intro net order u hnd hmem
    obtain ⟨l1, l2, rfl⟩ := List.append_of_mem hmem
    rw [List.nodup_append] at hnd
    obtain ⟨hnd1, hnd2, hdisj⟩ := hnd
    have hu1 : u ∉ l1 := fun h => hdisj h (List.mem_cons_self u l2)
    have hu2 : u ∉ l2 := (List.nodup_cons.mp hnd2).1
    have hsplit : stepOrder (l1 ++ u :: l2) net =
        stepOrder l2 (tickOne (stepOrder l1 net) u) := by
      unfold stepOrder
      rw [List.foldl_append]
      rfl
    rw [hsplit]
    set M := stepOrder l1 net with hM
    obtain ⟨e1, e2, _, _⟩ := stepOrder_fields_unchanged hu2 (tickOne M u)
    rw [e1, e2, tickOne_self]
    have h1 : CoreEq (tickSelf (M u) u) (tickCore (M u)) := tickSelf_core _ _
    have h2 : CoreEq (tickCore (M u)) (tickCore (net u)) := by
      obtain ⟨f1, f2, f3, f4⟩ := stepOrder_fields_unchanged hu1 net
      obtain ⟨p1, p2, p3⟩ := stepOrder_params l1 net u
      exact tickCore_congr f1 f4 f3 p2 p3 p1
    have h := coreEq_trans h1 h2
    exact ⟨h.1, h.2.1⟩

/-- Witness for claim C2 on the concrete chain `S0 → N0`: an injection of
200 into `S0` leaves `N0`'s membrane potential unchanged after one step,
and a step's outcome for `N0` matches the deposit-free transition. -/
theorem claim_C2_witness :
    ((runSteps [["S0", "N0"]] (injectAmt netC2 "S0" 200)) "N0").value =
      ((runSteps [["S0", "N0"]] netC2) "N0").value ∧
    ((stepOrder ["S0", "N0"] netC2) "N0").value = (tickCore (netC2 "N0")).value := by
  constructor
  · exact (claim_C2_one_tick_delay.1 netC2 "S0" 200 [["S0", "N0"]] "N0" (by decide)
      (farFrom_one_of_ne (by decide))).1
  · exact (claim_C2_one_tick_delay.2 netC2 ["S0", "N0"] "N0" (by decide) (by decide)).1

/-- Counterexample to claim C7 as stated: with a negative resting potential
(permitted by the `NEURON` file directive) a neuron that fires ends the tick
with a negative membrane potential.  Here `S0` has resting -1 and
threshold 1; injecting 5 makes it fire on the second step. -/
theorem claim_C7_counterexample :
    ((runSteps [["S0"], ["S0"]] (injectAmt netC7 "S0" 5)) "S0").value < 0 := by
  norm_num [runSteps, stepOrder, tickOne, injectAmt, receive, netC7, fireDeposits,
    outW, clampQ, Function.update_same]

/-- Claim C7 (amended): after any network step, every neuron's membrane
potential is nonnegative, provided every resting potential is nonnegative
and every membrane potential was nonnegative before the step (both hold
inductively from the in-repository constructors, which use resting 70
or 0). -/
theorem claim_C7_membrane_nonneg (net : NetState) (order : List String)
    (hrest : ∀ x, 0 ≤ (net x).resting) (hval : ∀ x, 0 ≤ (net x).value) :
    ∀ x, 0 ≤ ((stepOrder order net) x).value := by
  induction order generalizing net with
  | nil => exact hval
  | cons u tl ih =>
    show ∀ x, 0 ≤ ((stepOrder tl (tickOne net u)) x).value
    apply ih
    · intro x
      rw [(tickOne_params net u x).1]
      exact hrest x
    · intro x
      by_cases hx : x = u
      · subst hx
        rw [tickOne_self]
        unfold tickSelf
        split_ifs
        · exact hval x
        · exact hrest x
        · exact clampQ_nonneg _
      · rw [(tickOne_ne_fields hx).1]
        exact hval x

/-- Witness for the amended claim C7 at a concrete quiescent network. -/
theorem claim_C7_witness :
    0 ≤ ((stepOrder ["A"] (fun _ => baseNeuron)) "A").value :=
  claim_C7_membrane_nonneg (fun _ => baseNeuron) ["A"]
    (fun _ => le_rfl) (fun _ => le_rfl) "A"

/-- Claim C9: `Glia::injectSensory` with an identifier that is not
registered in the sensory mapping is a complete no-op: the whole network
state is returned unchanged. -/
theorem claim_C9_inject_unknown_noop (g : GliaState) (id : String) (amt : ℚ)
    (h : id ∉ g.sens) : injectSensory g id amt = g := by
  unfold injectSensory
  rw [if_neg h]

/-- Witness for claim C9: injecting into the non-sensory id `N0` leaves the
concrete network untouched. -/
theorem claim_C9_witness : injectSensory gC9 "N0" 5 = gC9 :=
  claim_C9_inject_unknown_noop gC9 "N0" 5 (by decide)

/-- Claim C10: the rate detector is total — `getRate` is 0 for a neuron
never passed to `update`, `getMargin` is 0 with fewer than two ids, and
`argmax` of an empty id list returns the configured default for any
threshold above the -1 sentinel. -/
theorem claim_C10_detector_totality :
    (∀ (alpha : ℚ) (us : List (String × Bool)) (id : String),
      id ∉ us.map Prod.fst →
      trGetRate (applyUpdates (freshTracker alpha) us) id = 0) ∧
    (∀ (t : RateTracker) (ids : List String), ids.length < 2 → trMargin t ids = 0) ∧
    (∀ (t : RateTracker) (dflt : String) (thr : ℚ), -1 < thr →
      trArgmax t [] dflt thr = dflt) := by
  refine ⟨?_, ?_, ?_⟩
  · intro alpha us id hmem
    unfold trGetRate
    rw [applyUpdates_untracked us (freshTracker alpha) id hmem rfl]
    rfl
  · intro t ids h
    unfold trMargin
    rw [if_pos h]
  · intro t dflt thr h
    unfold trArgmax
    simp only [List.foldl_nil]
    rw [if_pos h]

/-- Claim C5: `revertOneCheckpoint` pops the most recent snapshot of L0,
falling back to L1 and then L2; when all ladders are empty it returns false
and leaves the whole trainer (network included) unchanged.  Restoring a
snapshot leaves exactly the snapshot's edges with their recorded weights
(edges absent from the snapshot are deleted, missing ones are added, and
existing ones are reweighted), and sets each recorded neuron's threshold
and leak. -/
theorem claim_C5_revert_restore :
    (∀ ts : TrainerState, ts.l0 = [] → ts.l1 = [] → ts.l2 = [] →
      revertOneCheckpoint ts = (false, ts)) ∧
    (∀ (ts : TrainerState) (l : List Snapshot) (s : Snapshot), ts.l0 = l ++ [s] →
      revertOneCheckpoint ts =
        (true, { ts with glia := restoreSnapshot s ts.glia, l0 := l })) ∧
    (∀ (ts : TrainerState) (l : List Snapshot) (s : Snapshot),
      ts.l0 = [] → ts.l1 = l ++ [s] →
      revertOneCheckpoint ts =
        (true, { ts with glia := restoreSnapshot s ts.glia, l1 := l })) ∧
    (∀ (ts : TrainerState) (l : List Snapshot) (s : Snapshot),
      ts.l0 = [] → ts.l1 = [] → ts.l2 = l ++ [s] →
      revertOneCheckpoint ts =
        (true, { ts with glia := restoreSnapshot s ts.glia, l2 := l })) ∧
    (∀ (s : Snapshot) (g : GliaState),
      (allIds g).Nodup →
      (s.edges.map (fun e => (e.src, e.dst))).Nodup →
      (∀ e ∈ s.edges, e.src ∈ allIds g ∧ e.dst ∈ allIds g) →
      ∀ a ∈ allIds g, ∀ b : String,
        alookup ((restoreSnapshot s g).st a).connections b =
          (match s.edges.find? (fun e => decide (e.src = a ∧ e.dst = b)) with
            | some e => some e.w
            | none => none)) ∧
    (∀ (s : Snapshot) (g : GliaState),
      (s.neurons.map NeuronRec.nid).Nodup →
      (∀ r ∈ s.neurons, r.nid ∈ allIds g) →
      ∀ r ∈ s.neurons,
        ((restoreSnapshot s g).st r.nid).threshold = r.thr ∧
        ((restoreSnapshot s g).st r.nid).balancer = r.leak) := by
  refine ⟨?_, ?_, ?_, ?_, ?_, ?_⟩
  · intro ts h0 h1 h2
    simp [revertOneCheckpoint, popBack, h0, h1, h2]
  · intro ts l s h0
    unfold revertOneCheckpoint
    rw [h0, popBack_concat]
  · intro ts l s h0 h1
    unfold revertOneCheckpoint
    rw [h0, h1, popBack_concat]
    rfl
  · intro ts l s h0 h1 h2
    unfold revertOneCheckpoint
    rw [h0, h1, h2, popBack_concat]
    rfl
  · intro s g hnd hkeys hp a ha b
    unfold restoreSnapshot
    rw [neuronsFold_connections]
    rw [edgesFold_lookup s.edges (removeAbsent s g) a b hkeys hp]
    cases hf : s.edges.find? (fun e => decide (e.src = a ∧ e.dst = b)) with
    | some e => rfl
    | none =>
      simp [removeAbsent_lookup s g a b hnd ha, snapHasEdge_false_of_find_none hf]
  · intro s g hnd hp r hr
    unfold restoreSnapshot
    apply neuronsFold_params s.neurons _ hnd _ r hr
    intro r' h
    rw [edgesFold_allIds]
    exact hp r' h

/-- Witness for claim C5 at a concrete trainer: revert with empty ladders
is a refusal, revert pops the one stored snapshot, and restoring a
one-edge snapshot yields exactly that edge and the recorded neuron
parameters. -/
theorem claim_C5_witness :
    revertOneCheckpoint (mkTrainer gC9) = (false, mkTrainer gC9) ∧
    revertOneCheckpoint { mkTrainer gC9 with l0 := [snapC5] } =
      (true, { mkTrainer gC9 with glia := restoreSnapshot snapC5 gC9, l0 := [] }) ∧
    alookup ((restoreSnapshot snapC5 gC9).st "S0").connections "N0" =
      (match snapC5.edges.find? (fun e => decide (e.src = "S0" ∧ e.dst = "N0")) with
        | some e => some e.w
        | none => none) ∧
    ((restoreSnapshot snapC5 gC9).st "N0").threshold = 2 ∧
    ((restoreSnapshot snapC5 gC9).st "N0").balancer = 1 := by
  refine ⟨claim_C5_revert_restore.1 (mkTrainer gC9) rfl rfl rfl, ?_, ?_, ?_⟩
  · exact claim_C5_revert_restore.2.1 { mkTrainer gC9 with l0 := [snapC5] } [] snapC5 rfl
  · exact claim_C5_revert_restore.2.2.2.2.1 snapC5 gC9 (by decide) (by decide)
      (by decide) "S0" (by decide) "N0"
  · have h := claim_C5_revert_restore.2.2.2.2.2 snapC5 gC9 (by decide) (by decide)
      ⟨"N0", 2, 1⟩ (by decide)
    exact h

/-- Claim C6: each epoch-end capture pushes a snapshot to L0 and cascades
overflow (L0's oldest to L1, L1's oldest to L2, L2's oldest dropped), so
after `k` captures from empty ladders the level populations are
`min k c0`, `min (k - c0) c1` and `min (k - c0 - c1) c2`, and the total
number of retained snapshots is `min k (c0 + c1 + c2)`. -/
theorem claim_C6_ladder_capacity (cfg : LadderCfg) (k : ℕ) (ts : TrainerState)
    (h0 : ts.l0 = []) (h1 : ts.l1 = []) (h2 : ts.l2 = [])
    (hc0 : 0 ≤ cfg.c0) (hc1 : 0 ≤ cfg.c1) (hc2 : 0 ≤ cfg.c2) :
    ((((onEpochEndCapture cfg)^[k] ts).l0.length : ℤ) = min (k : ℤ) cfg.c0) ∧
    ((((onEpochEndCapture cfg)^[k] ts).l1.length : ℤ) =
      max 0 (min ((k : ℤ) - cfg.c0) cfg.c1)) ∧
    ((((onEpochEndCapture cfg)^[k] ts).l2.length : ℤ) =
      max 0 (min ((k : ℤ) - cfg.c0 - cfg.c1) cfg.c2)) ∧
    ((((onEpochEndCapture cfg)^[k] ts).l0.length : ℤ) +
      (((onEpochEndCapture cfg)^[k] ts).l1.length : ℤ) +
      (((onEpochEndCapture cfg)^[k] ts).l2.length : ℤ) =
        min (k : ℤ) (cfg.c0 + cfg.c1 + cfg.c2)) := by
  obtain ⟨e0, e1, e2⟩ := capture_iter_lengths cfg hc0 hc1 hc2 k ts h0 h1 h2
  refine ⟨e0, e1, e2, ?_⟩
  rw [e0, e1, e2]
  omega

/-- Witness for claim C6: five captures into a (1, 1, 1) ladder retain
exactly three snapshots. -/
theorem claim_C6_witness :
    ((((onEpochEndCapture ⟨1, 1, 1⟩)^[5] (mkTrainer gC9)).l0.length : ℤ) +
      ((((onEpochEndCapture ⟨1, 1, 1⟩)^[5] (mkTrainer gC9)).l1.length : ℤ)) +
      ((((onEpochEndCapture ⟨1, 1, 1⟩)^[5] (mkTrainer gC9)).l2.length : ℤ)) =
        min (5 : ℤ) (1 + 1 + 1)) :=
  (claim_C6_ladder_capacity ⟨1, 1, 1⟩ 5 (mkTrainer gC9) rfl rfl rfl
    (by decide) (by decide) (by decide)).2.2.2

/-- Counterexample to claim C3 as stated: at a tick where no neuron spiked
(`pre = 0`, so the eligibility-trace rule `λ·e + pre·post` adds nothing in
either post mode), the rate-gradient learner still accumulates the
presynaptic EMA rate: its per-tick update is `λ·e + r_from`, not
`λ·e + pre·post`. -/
theorem claim_C3_counterexample :
    gdEligTick 1 gC9 (fun _ => 1) (fun _ => 0) ("S0", "N0") = 1 ∧
    hebbEligTick 1 true gC9 (fun _ => false) (fun _ => 1) (fun _ => 0) ("S0", "N0") = 0 ∧
    hebbEligTick 1 false gC9 (fun _ => false) (fun _ => 1) (fun _ => 0) ("S0", "N0") = 0 := by
  refine ⟨?_, ?_, ?_⟩
  · have h2 : gdEligTick 1 gC9 (fun _ => 1) (fun _ => 0) ("S0", "N0") =
        (if "S0" ∈ allIds gC9 ∧ "N0" ∈ (gC9.st "S0").connections.map Prod.fst then
          (1 : ℚ) * 0 + 1 else 0) :=
      elig_outer_fold (fun k v => 1 * v + 1) gC9 (allIds gC9) (by decide) (by decide)
        (fun _ => 0) ("S0", "N0")
    rw [h2, if_pos (by decide)]
    norm_num
  · have h2 : hebbEligTick 1 true gC9 (fun _ => false) (fun _ => 1) (fun _ => 0) ("S0", "N0") =
        (if "S0" ∈ allIds gC9 ∧ "N0" ∈ (gC9.st "S0").connections.map Prod.fst then
          (1 : ℚ) * 0 + 0 * 1 else 0) :=
      elig_outer_fold (fun k v => 1 * v + 0 * 1) gC9 (allIds gC9) (by decide) (by decide)
        (fun _ => 0) ("S0", "N0")
    rw [h2, if_pos (by decide)]
    norm_num
  · have h2 : hebbEligTick 1 false gC9 (fun _ => false) (fun _ => 1) (fun _ => 0) ("S0", "N0") =
        (if "S0" ∈ allIds gC9 ∧ "N0" ∈ (gC9.st "S0").connections.map Prod.fst then
          (1 : ℚ) * 0 + 0 * 0 else 0) :=
      elig_outer_fold (fun k v => 1 * v + 0 * 0) gC9 (allIds gC9) (by decide) (by decide)
        (fun _ => 0) ("S0", "N0")
    rw [h2, if_pos (by decide)]
    norm_num

/-- Claim C3 (amended): in the rate-gradient learner the per-tick
eligibility update for an existing edge `(i → j)` is `e ← λ·e + r_i` where
`r_i` is the presynaptic EMA rate — the presynaptic factor is the rate, not
the `{0,1}` spike indicator, and no postsynaptic factor is applied — while
the eligibility-trace learner uses `e ← λ·e + pre·post` with the indicator
`pre` and configurable `post`; non-edges are untouched by both. -/
theorem claim_C3_elig_rules (lam : ℚ) (postUseRate : Bool) (g : GliaState)
    (fired : String → Bool) (rate : String → ℚ) (elig : String × String → ℚ)
    (a b : String) (hnd : (allIds g).Nodup)
    (hc : ∀ id ∈ allIds g, ((g.st id).connections.map Prod.fst).Nodup) :
    (gdEligTick lam g rate elig (a, b) =
      (if a ∈ allIds g ∧ b ∈ (g.st a).connections.map Prod.fst then
        lam * elig (a, b) + rate a
       else elig (a, b))) ∧
    (hebbEligTick lam postUseRate g fired rate elig (a, b) =
      (if a ∈ allIds g ∧ b ∈ (g.st a).connections.map Prod.fst then
        lam * elig (a, b) +
          (if fired a then 1 else 0) *
            (if postUseRate then rate b else (if fired b then 1 else 0))
       else elig (a, b))) := by
  constructor
  · exact elig_outer_fold (fun k v => lam * v + rate k.1) g (allIds g) hnd hc elig (a, b)
  · exact elig_outer_fold
      (fun k v => lam * v +
        (if fired k.1 then 1 else 0) *
          (if postUseRate then rate k.2 else (if fired k.2 then 1 else 0)))
      g (allIds g) hnd hc elig (a, b)

/-- Witness for the amended claim C3 on the concrete edge `S0 → N0`. -/
theorem claim_C3_witness :
    (gdEligTick 1 gC9 (fun _ => 1) (fun _ => 0) ("S0", "N0") =
      (if "S0" ∈ allIds gC9 ∧ "N0" ∈ (gC9.st "S0").connections.map Prod.fst then
        (1 : ℚ) * (fun _ => (0 : ℚ)) ("S0", "N0") + (fun _ => (1 : ℚ)) "S0"
       else (fun _ => (0 : ℚ)) ("S0", "N0"))) ∧
    (hebbEligTick 1 true gC9 (fun _ => false) (fun _ => 1) (fun _ => 0) ("S0", "N0") =
      (if "S0" ∈ allIds gC9 ∧ "N0" ∈ (gC9.st "S0").connections.map Prod.fst then
        (1 : ℚ) * (fun _ => (0 : ℚ)) ("S0", "N0") +
          (if (fun _ => false) "S0" then 1 else 0) *
            (if true then (fun _ => (1 : ℚ)) "N0" else (if (fun _ => false) "N0" then 1 else 0))
       else (fun _ => (0 : ℚ)) ("S0", "N0"))) :=
  claim_C3_elig_rules 1 true gC9 (fun _ => false) (fun _ => 1) (fun _ => 0) "S0" "N0"
    (by decide) (by decide)

/-- Claim C4: in `RateGDTrainer::applyGradients` (per-edge body
`gdEdgeUpdate`), with nonnegative weight decay and clipping off, SGD and
Adam apply the coupled post-update shrink `w ← w − wd·w` after their
gradient step, while AdamW applies the decoupled decay `w ← w − lr·wd·w`
before the Adam step and no coupled decay afterwards. -/
theorem claim_C4_decay_placement (cfg : TrainingConfig) (sqrtQ : ℚ → ℚ) (step : ℕ)
    (m v g w : ℚ) (hwd : 0 ≤ cfg.weight_decay) (hclip : cfg.weight_clip = 0) :
    (cfg.grad.optimizer = "sgd" →
      (gdEdgeUpdate cfg sqrtQ step m v g w).1 =
        (w - cfg.lr * g) - cfg.weight_decay * (w - cfg.lr * g)) ∧
    (cfg.grad.optimizer = "adam" →
      (gdEdgeUpdate cfg sqrtQ step m v g w).1 =
        (w - adamDelta cfg sqrtQ step m v g) -
          cfg.weight_decay * (w - adamDelta cfg sqrtQ step m v g)) ∧
    (cfg.grad.optimizer = "adamw" →
      (gdEdgeUpdate cfg sqrtQ step m v g w).1 =
        (w - cfg.lr * cfg.weight_decay * w) - adamDelta cfg sqrtQ step m v g) := by
  refine ⟨fun ho => ?_, fun ho => ?_, fun ho => ?_⟩
  · have hOr : ¬ (cfg.grad.optimizer = "adam" ∨ cfg.grad.optimizer = "adamw") := by
      rw [ho]; decide
    have hW : ¬ cfg.grad.optimizer = "adamw" := fun hc => hOr (Or.inr hc)
    simp only [gdEdgeUpdate]
    rw [if_neg hOr, hclip]
    by_cases hwd0 : 0 < cfg.weight_decay
    · have hc2 : (¬ cfg.grad.optimizer = "adamw") ∧ 0 < cfg.weight_decay := ⟨hW, hwd0⟩
      rw [if_pos hc2, clampW_zero]
    · have hc2 : ¬ ((¬ cfg.grad.optimizer = "adamw") ∧ 0 < cfg.weight_decay) :=
        fun hc => hwd0 hc.2
      have hz : cfg.weight_decay = 0 := le_antisymm (not_lt.mp hwd0) hwd
      rw [if_neg hc2, clampW_zero, hz]
      dsimp only
      ring
  · have hOr : cfg.grad.optimizer = "adam" ∨ cfg.grad.optimizer = "adamw" := Or.inl ho
    have hW : ¬ cfg.grad.optimizer = "adamw" := by rw [ho]; decide
    have hc1 : ¬ (cfg.grad.optimizer = "adamw" ∧ 0 < cfg.weight_decay) :=
      fun hc => hW hc.1
    simp only [gdEdgeUpdate]
    rw [if_pos hOr, if_neg hc1, hclip]
    by_cases hwd0 : 0 < cfg.weight_decay
    · have hc2 : (¬ cfg.grad.optimizer = "adamw") ∧ 0 < cfg.weight_decay := ⟨hW, hwd0⟩
      rw [if_pos hc2, clampW_zero]
    · have hc2 : ¬ ((¬ cfg.grad.optimizer = "adamw") ∧ 0 < cfg.weight_decay) :=
        fun hc => hwd0 hc.2
      have hz : cfg.weight_decay = 0 := le_antisymm (not_lt.mp hwd0) hwd
      rw [if_neg hc2, clampW_zero, hz]
      dsimp only
      ring
  · have hOr : cfg.grad.optimizer = "adam" ∨ cfg.grad.optimizer = "adamw" := Or.inr ho
    have hc2 : ¬ ((¬ cfg.grad.optimizer = "adamw") ∧ 0 < cfg.weight_decay) :=
      fun hc => hc.1 ho
    simp only [gdEdgeUpdate]
    rw [if_pos hOr, if_neg hc2, hclip]
    by_cases hwd0 : 0 < cfg.weight_decay
    · have hc1 : cfg.grad.optimizer = "adamw" ∧ 0 < cfg.weight_decay := ⟨ho, hwd0⟩
      rw [if_pos hc1, clampW_zero]
    · have hc1 : ¬ (cfg.grad.optimizer = "adamw" ∧ 0 < cfg.weight_decay) :=
        fun hc => hwd0 hc.2
      have hz : cfg.weight_decay = 0 := le_antisymm (not_lt.mp hwd0) hwd
      rw [if_neg hc1, clampW_zero, hz]
      dsimp only
      ring

/-- Witness for claim C4 on the default (SGD) configuration. -/
theorem claim_C4_witness :
    (0 : ℚ) ≤ cfgDef.weight_decay ∧ cfgDef.weight_clip = 0 ∧
    (cfgDef.grad.optimizer = "sgd" →
      (gdEdgeUpdate cfgDef (fun q => q) 1 0 0 1 2).1 =
        ((2 : ℚ) - cfgDef.lr * 1) - cfgDef.weight_decay * (2 - cfgDef.lr * 1)) :=
  ⟨by decide, rfl,
   (claim_C4_decay_placement cfgDef (fun q => q) 1 0 0 1 2 (by decide) rfl).1⟩

/-- Witness for claim C10 at concrete inputs. -/
theorem claim_C10_witness :
    trGetRate (applyUpdates (freshTracker 1) [("O0", true)]) "O1" = 0 ∧
    trMargin (freshTracker 1) ["O0"] = 0 ∧
    trArgmax (freshTracker 1) [] "O9" 0 = "O9" :=
  ⟨claim_C10_detector_totality.1 1 [("O0", true)] "O1" (by decide),
   claim_C10_detector_totality.2.1 (freshTracker 1) ["O0"] (by decide),
   claim_C10_detector_totality.2.2 (freshTracker 1) "O9" 0 (by decide)⟩

/-- Claim C8 (amended): in the eligibility-trace learner with binary reward
mode, `reward_pos = reward_neg = 0`, a zero advantage baseline, and with
weight clipping, pruning, growth, usage boost and inactive-neuron pruning
disabled, training over any sequence of batches multiplies every existing
edge weight by `1 − wd` once per batch: after `N` batches the weight is
`w0 · (1 − wd)^N`.  (Without the clipping and pruning provisos the spec's
equation fails: the clip rewrites the decayed weight and pruning can delete
the edge.) -/
theorem claim_C8_decay_only (expQ : ℚ → ℚ) (pick : ℕ → String × String × Bool)
    (cfg : TrainingConfig) (ts : TrainerState)
    (hmode : cfg.reward_mode = "binary") (hpos : cfg.reward_pos = 0)
    (hneg : cfg.reward_neg = 0) (hclip : cfg.weight_clip = 0)
    (heps : cfg.prune_epsilon = 0) (hgrow : cfg.grow_edges = 0)
    (hboost : cfg.usage_boost_gain = 0) (hinact : cfg.inactive_rate_threshold = 0)
    (hbase : ts.reward_baseline = 0) (hnd : (allIds ts.glia).Nodup)
    (hc : ∀ a ∈ allIds ts.glia, (((ts.glia.st a).connections).map Prod.fst).Nodup) :
    ∀ (bs : List (List (InputSeq × String))) (a toId : String) (w0 : ℚ),
    a ∈ allIds ts.glia →
    alookup ((ts.glia.st a).connections) toId = some w0 →
    alookup (((bs.foldl (fun t batch => trainBatch expQ pick cfg batch t) ts).glia.st a).connections)
      toId = some (w0 * (1 - cfg.weight_decay) ^ bs.length) := by
  intro bs
  revert ts
  induction bs with
  | nil =>
    intro ts hbase hnd hc a toId w0 ha hw
    simpa using hw
  | cons batch tl ih =>
    intro ts hbase hnd hc a toId w0 ha hw
    rw [List.foldl_cons]
    obtain ⟨m1, m2, m3, m4⟩ := trainBatch_decay expQ pick cfg batch ts hmode hpos hneg
      hclip heps hgrow hboost hinact hbase hnd hc
    have hAll : allIds (trainBatch expQ pick cfg batch ts).glia = allIds ts.glia := by
      show (trainBatch expQ pick cfg batch ts).glia.sens ++
        (trainBatch expQ pick cfg batch ts).glia.rest = ts.glia.sens ++ ts.glia.rest
      rw [m1, m2]
    have hnd' : (allIds (trainBatch expQ pick cfg batch ts).glia).Nodup := by
      rw [hAll]
      exact hnd
    have hc' : ∀ x ∈ allIds (trainBatch expQ pick cfg batch ts).glia,
        ((((trainBatch expQ pick cfg batch ts).glia.st x).connections).map Prod.fst).Nodup := by
      intro x hx
      rw [hAll] at hx
      rw [m3 x, if_pos hx, keys_map_pair]
      exact hc x hx
    have ha' : a ∈ allIds (trainBatch expQ pick cfg batch ts).glia := by
      rw [hAll]
      exact ha
    have hw' : alookup (((trainBatch expQ pick cfg batch ts).glia.st a).connections) toId =
        some (w0 * (1 - cfg.weight_decay)) := by
      rw [m3 a, if_pos ha,
        alookup_map_decay (1 - cfg.weight_decay) ((ts.glia.st a).connections) toId, hw]
      rfl
    have hrec := ih (trainBatch expQ pick cfg batch ts) m4 hnd' hc' a toId
      (w0 * (1 - cfg.weight_decay)) ha' hw'
    rw [hrec]
    congr 1
    rw [List.length_cons]
    ring

/-- Witness for the amended claim C8: the default network with the benign
configuration, one empty batch. -/
theorem claim_C8_witness :
    (cfgC8w.reward_mode = "binary" ∧ cfgC8w.reward_pos = 0 ∧ cfgC8w.reward_neg = 0 ∧
     cfgC8w.weight_clip = 0 ∧ cfgC8w.prune_epsilon = 0) ∧
    alookup (((([[]] : List (List (InputSeq × String))).foldl
      (fun t batch => trainBatch (fun q => q) (fun _ => ("", "", true)) cfgC8w batch t)
      (mkTrainer gC9)).glia.st "S0").connections) "N0" =
      some (200 * (1 - cfgC8w.weight_decay) ^
        ([[]] : List (List (InputSeq × String))).length) :=
  ⟨⟨rfl, rfl, rfl, rfl, rfl⟩,
   claim_C8_decay_only (fun q => q) (fun _ => ("", "", true)) cfgC8w (mkTrainer gC9)
     rfl rfl rfl rfl rfl rfl rfl rfl rfl (by decide) (by decide)
     [[]] "S0" "N0" 200 (by decide) (by decide)⟩

/-- Counterexample to claim C8 as stated: `cfgC8c` is in the claim's family
(binary reward mode, `reward_pos = reward_neg = 0`), yet one batch on the
two-neuron network cuts the weight 200 down to the configured clip bound
1/2 instead of `200 · (1 − wd)^1 = 180`. -/
theorem claim_C8_counterexample :
    cfgC8c.reward_mode = "binary" ∧ cfgC8c.reward_pos = 0 ∧ cfgC8c.reward_neg = 0 ∧
    alookup (((trainBatch (fun q => q) (fun _ => ("", "", true)) cfgC8c [(seqC8, "O0")]
      (mkTrainer gC9)).glia.st "S0").connections) "N0" = some (1/2) ∧
    ¬ ((1 : ℚ)/2 = 200 * (1 - cfgC8c.weight_decay) ^ 1) := by
  have h1 : headIs "S0" 'O' = false := by decide
  have h2 : headIs "N0" 'O' = false := by decide
  have hq1 : ¬ ("N0" : String) = "S0" := by decide
  have hq2 : ¬ ("S0" : String) = "N0" := by decide
  have hq3 : ¬ ("O2" : String) = "O0" := by decide
  have hq4 : ¬ ("O2" : String) = "" := by decide
  have hq5 : ¬ ("N0" : String) = "O2" := by decide
  have hq6 : ¬ ("binary" : String) = "margin_linear" := by decide
  have hq7 : ¬ ("binary" : String) = "softplus_margin" := by decide
  refine ⟨rfl, rfl, rfl, ?_, by norm_num [cfgC8c, cfgDef]⟩
  norm_num [trainBatch, batchStep, computeEpisodeDelta, computeReward, targetMargin,
    maxOther, gateTake, deltaFold, usageFold, detPredict, detUpdate, updateDetector,
    trArgmax, trMargin, trGetRate, trUpdate, freshTracker, collectOutputIDs, allIds,
    applyDeltas, deltaEdgeW, clampW, setW, aset, alookup, boostFold, pruneScan, fabsQ,
    edgesOf, removeConn, growLoop, intrinsicFold, inactiveScan, seqReset,
    seqCurrentInputs, seqAdvance, injectFromSeq, mkTrainer, gC9, netC2, baseNeuron,
    cfgC8c, cfgDef, seqC8, Function.update_apply, Function.iterate_zero, id_eq,
    Prod.mk.injEq, h1, h2, hq1, hq2, hq3, hq4, hq5, hq6, hq7]

end GliaGL
